import Mathlib

/-!
Verification of the machine-number codec in `ex1_machine_numbers.py`.

A machine vector is embedded as a `List ℚ`: the first `t` entries are the
mantissa bits (bit 0 the sign bit, bits 1..t-1 the fractional mantissa) and
the final entry is the ternary characteristic.  The Python functions `fl1`
(decode), `fl2` (set characterization), `fl3` (encode) and `fl4` (addition)
are embedded as executable Lean functions over exact rationals; a Python
`raise` is modelled by `Except.error` (for `fl2`, which is consumed only
through its return tuple, by `Option.none`).
-/

set_option maxHeartbeats 1000000
set_option maxRecDepth 100000

namespace MachineNumbers

/-- Base-2 fractional value of a bit list: entry `i` contributes `bit * 2^-(i+1)`,
mirroring the accumulation loop in `fl1`. -/
def fracVal : List ℚ → ℚ
  | [] => 0
  | b :: l => b / 2 + fracVal l / 2

/-- Decode of a mantissa (sign bit followed by fractional bits) at an integer
characteristic: the body of `fl1` after input validation. -/
def fl1core (mantissa : List ℚ) (c : ℤ) : ℚ :=
  if ∀ b ∈ mantissa, b = 0 then 0
  else (if mantissa.headI = 0 then 1 else -1) * (1 + fracVal mantissa.tail) * 3 ^ c

/-- `fl1`: converts a machine vector to the real (here: rational) number it
represents, validating shape, mantissa bits and characteristic first. -/
def fl1 (v : List ℚ) : Except String ℚ :=
  if v.length < 2 then .error "Input must be a vector with at least 2 elements"
  else if ¬ (∀ b ∈ v.dropLast, b = 0 ∨ b = 1) then .error "Mantissa bits must be 0 or 1"
  else if (v.getLastD 0).den ≠ 1 then .error "Characteristic must be an integer"
  else .ok (fl1core v.dropLast (v.getLastD 0).num)

/-- All `2^t` mantissa bit patterns of length `t` (the set enumerated by `fl2`;
the enumeration order differs from the Python loop but the resulting set,
and hence every order-insensitive output of `fl2`, is identical). -/
def allMantissas : ℕ → List (List ℚ)
  | 0 => [[]]
  | n + 1 => (allMantissas n).flatMap fun l => [0 :: l, 1 :: l]

/-- The characteristics `k1, k1+1, ..., k2` enumerated by `fl2`. -/
def charRange (k1 k2 : ℤ) : List ℤ :=
  (List.range (k2 + 1 - k1).toNat).map fun (i : ℕ) => k1 + (i : ℤ)

/-- The list of reals generated by `fl2`: zero, then the decode of every
non-all-zero mantissa pattern at every characteristic in `[k1, k2]`. -/
def fl2Values (t : ℕ) (k1 k2 : ℤ) : List ℚ :=
  0 :: (charRange k1 k2).flatMap fun k =>
    ((allMantissas t).filter fun m => ¬ (∀ b ∈ m, b = 0)).map fun m => fl1core m k

/-- `fl2`: characterizes the machine-number set, returning
`(M_inf, eps_0, eps_1, num_elements)`; `none` models a raised exception
(invalid parameters, or `np.min` applied to an empty positive part). -/
def fl2 (t : ℕ) (k1 k2 : ℤ) : Option (ℚ × ℚ × Option ℚ × ℕ) :=
  if t = 0 then none
  else if k2 ≤ k1 then none
  else
    match (fl2Values t k1 k2).dedup.filter fun x => 0 < x with
    | [] => none
    | p :: ps =>
      some (((fl2Values t k1 k2).dedup.map fun x => |x|).foldr max 0,
            ps.foldl min p,
            (match ((fl2Values t k1 k2).dedup.filter fun x => 0 < x).filter
                fun x => 1 < x with
             | [] => none
             | q :: qs => some (qs.foldl min q - 1)),
            (fl2Values t k1 k2).dedup.length)

/-- Clamping of the candidate characteristic into `[k1, k2]` in `fl3`. -/
def clampChar (k0 k1 k2 : ℤ) : ℤ :=
  if k0 < k1 then k1 else if k2 < k0 then k2 else k0

/-- The fractional part `|r| / 3^k - 1` clamped into `[0, 1)` as in `fl3`
(the upper clamp is `1 - np.finfo(float).eps = 1 - 2^-52`). -/
def fracOf (a : ℚ) (k : ℤ) : ℚ :=
  if a / 3 ^ k - 1 < 0 then 0
  else if 1 ≤ a / 3 ^ k - 1 then 1 - (2 : ℚ) ^ (-52 : ℤ)
  else a / 3 ^ k - 1

/-- Binary-fraction extraction by repeated doubling, as in the `fl3` loop. -/
def extractBits : ℚ → ℕ → List ℚ
  | _, 0 => []
  | f, n + 1 => if 1 ≤ 2 * f then 1 :: extractBits (2 * f - 1) n else 0 :: extractBits (2 * f) n

/-- The `t-1` truncated fractional bits produced by `fl3` for magnitude `a`
at characteristic `k`. -/
def truncBits (a : ℚ) (k : ℤ) (t : ℕ) : List ℚ :=
  extractBits (fracOf a k) (t - 1)

/-- The tentative machine vector `fl3` builds before the rounding check. -/
def truncVec (r : ℚ) (t : ℕ) (k : ℤ) : List ℚ :=
  (if 0 < r then (0 : ℚ) else 1) :: truncBits |r| k t ++ [(k : ℚ)]

/-- One pass of the ripple-carry loop of `fl3`, acting on the REVERSED bit
list (the Python loop walks from the last fractional bit leftwards):
a trailing 0 becomes 1 and the carry stops; 1s flip to 0 while the carry
propagates; the Bool records whether the carry survived past every bit. -/
def carryStep : List ℚ → List ℚ × Bool
  | [] => ([], true)
  | b :: l => if b = 0 then (1 :: l, false) else (0 :: (carryStep l).1, (carryStep l).2)

/-- The rounding-correction branch of `fl3`: round the last fractional bit up
with ripple carry; on full carry overflow with `k < k2`, bump the
characteristic and zero the fractional bits.  Indexing an empty bit list
(only possible for `t = 1`, which is unreachable) models the Python
IndexError. -/
def roundCorrect (signBit : ℚ) (fracBits : List ℚ) (k k2 : ℤ) (t : ℕ) :
    Except String (List ℚ) :=
  match fracBits.reverse with
  | [] => .error "index -1 is out of bounds"
  | _ :: _ =>
    if (carryStep fracBits.reverse).2 = true ∧ k < k2 then
      .ok (signBit :: List.replicate (t - 1) (0 : ℚ) ++ [((k + 1 : ℤ) : ℚ)])
    else
      .ok (signBit :: (carryStep fracBits.reverse).1.reverse ++ [(k : ℚ)])

/-- The encoding core of `fl3` after validation and range checks: build the
truncated vector, decode it back, and apply the rounding correction when the
relative error exceeds 1/2. -/
def fl3core (r : ℚ) (t : ℕ) (k1 k2 : ℤ) : Except String (List ℚ) :=
  match fl1 (truncVec r t (clampChar (Int.log 3 |r|) k1 k2)) with
  | .error e => .error e
  | .ok w =>
    if 1 / 2 < |w - r| / |r| then
      roundCorrect (if 0 < r then (0 : ℚ) else 1)
        (truncBits |r| (clampChar (Int.log 3 |r|) k1 k2) t)
        (clampChar (Int.log 3 |r|) k1 k2) k2 t
    else .ok (truncVec r t (clampChar (Int.log 3 |r|) k1 k2))

/-- `fl3`: converts a real (rational) number to machine representation, or
fails for invalid parameters or an out-of-range magnitude. -/
def fl3 (r : ℚ) (t : ℕ) (k1 k2 : ℤ) : Except String (List ℚ) :=
  if t = 0 then .error "t must be a positive integer"
  else if k2 ≤ k1 then .error "k1 must be less than k2"
  else if r = 0 then .ok (List.replicate t (0 : ℚ) ++ [0])
  else
    match fl2 t k1 k2 with
    | none => .error "characterization failed"
    | some p =>
      if |r| < p.2.1 then .error "Number too small"
      else if p.1 < |r| then .error "Number too large"
      else fl3core r t k1 k2

/-- `fl4`: machine addition by decode, real addition and re-encode with the
adaptive range widening and last-resort saturation of the Python source. -/
def fl4 (v1 v2 : List ℚ) : Except String (List ℚ) :=
  if v1.length ≠ v2.length then .error "Input vectors must have the same length"
  else if v1.length < 2 then .error "Input vectors must have at least 2 elements"
  else if ¬ ((∀ b ∈ v1.dropLast, b = 0 ∨ b = 1) ∧ (∀ b ∈ v2.dropLast, b = 0 ∨ b = 1)) then
    .error "Mantissa bits must be 0 or 1"
  else if (v1.getLastD 0).den ≠ 1 ∨ (v2.getLastD 0).den ≠ 1 then
    .error "Characteristics must be integers"
  else if ∀ b ∈ v1.dropLast, b = 0 then .ok v2
  else if ∀ b ∈ v2.dropLast, b = 0 then .ok v1
  else
    match fl1 v1, fl1 v2 with
    | .ok r1, .ok r2 =>
      if r1 + r2 = 0 then .ok (List.replicate (v1.length - 1) (0 : ℚ) ++ [0])
      else
        match fl3 (r1 + r2) (v1.length - 1)
            (min (v1.getLastD 0).num (v2.getLastD 0).num - 2)
            (max (v1.getLastD 0).num (v2.getLastD 0).num + 2) with
        | .ok v => .ok v
        | .error _ =>
          match fl3 (r1 + r2) (v1.length - 1)
              (min (v1.getLastD 0).num (v2.getLastD 0).num - 2 - 3)
              (max (v1.getLastD 0).num (v2.getLastD 0).num + 2 + 3) with
          | .ok v => .ok v
          | .error _ =>
            if 0 < r1 + r2 then
              .ok ((0 : ℚ) :: List.replicate (v1.length - 2) (1 : ℚ) ++
                [((max (v1.getLastD 0).num (v2.getLastD 0).num + 2 : ℤ) : ℚ)])
            else
              .ok ((1 : ℚ) :: List.replicate (v1.length - 2) (1 : ℚ) ++
                [((max (v1.getLastD 0).num (v2.getLastD 0).num + 2 : ℤ) : ℚ)])
    | .error e, _ => .error e
    | _, .error e => .error e

/-- The claim's notion of a mantissa grid point: a value of the form
`± (1 + m / 2^(t-1)) * 3^k` with `m < 2^(t-1)` and `k ∈ [k1, k2]`. -/
def GridPoint (r : ℚ) (t : ℕ) (k1 k2 : ℤ) : Prop :=
  ∃ (m : ℕ) (k : ℤ), m < 2 ^ (t - 1) ∧ k1 ≤ k ∧ k ≤ k2 ∧
    (r = (1 + (m : ℚ) / 2 ^ (t - 1)) * 3 ^ k ∨ r = -((1 + (m : ℚ) / 2 ^ (t - 1)) * 3 ^ k))

/-! ### Arithmetic helper lemmas -/

lemma two_zpow_pos (z : ℤ) : (0 : ℚ) < 2 ^ z := zpow_pos (by norm_num) z

lemma three_zpow_pos (z : ℤ) : (0 : ℚ) < 3 ^ z := zpow_pos (by norm_num) z

lemma two_zpow_neg_succ (n : ℕ) : (2 : ℚ) ^ (-((n : ℤ) + 1)) = 2 ^ (-(n : ℤ)) / 2 := by
  rw [neg_add, zpow_add₀ (by norm_num : (2:ℚ) ≠ 0), zpow_neg_one]
  ring

lemma two_zpow_le_half (n : ℕ) : (2 : ℚ) ^ (-((n : ℤ) + 1)) ≤ 1 / 2 := by
  have h := zpow_le_zpow_right₀ (by norm_num : (1:ℚ) ≤ 2)
    (by omega : -((n : ℤ) + 1) ≤ -1)
  simpa [zpow_neg_one] using h

/-! ### `fracVal` lemmas -/

lemma fracVal_nonneg {l : List ℚ} (h : ∀ b ∈ l, b = 0 ∨ b = 1) : 0 ≤ fracVal l := by
  induction l with
  | nil => simp [fracVal]
  | cons b l ih =>
    have hb : b = 0 ∨ b = 1 := h b (by simp)
    have hl : 0 ≤ fracVal l := ih fun x hx => h x (by simp [hx])
    rcases hb with hb | hb <;> simp [fracVal, hb] <;> linarith

lemma fracVal_le {l : List ℚ} (h : ∀ b ∈ l, b = 0 ∨ b = 1) :
    fracVal l ≤ 1 - (2 : ℚ) ^ (-(l.length : ℤ)) := by
  induction l with
  | nil => simp [fracVal]
  | cons b l ih =>
    have hb : b ≤ 1 := by rcases h b (by simp) with hb | hb <;> simp [hb]
    have hl := ih fun x hx => h x (by simp [hx])
    have hlen : (2 : ℚ) ^ (-((b :: l).length : ℤ)) = 2 ^ (-(l.length : ℤ)) / 2 := by
      simpa using two_zpow_neg_succ l.length
    rw [fracVal, hlen]
    linarith

lemma fracVal_lt_one {l : List ℚ} (h : ∀ b ∈ l, b = 0 ∨ b = 1) : fracVal l < 1 := by
  have := fracVal_le h
  have := two_zpow_pos (-(l.length : ℤ))
  linarith

lemma fracVal_all_zero {l : List ℚ} (h : ∀ b ∈ l, b = 0) : fracVal l = 0 := by
  induction l with
  | nil => rfl
  | cons b l ih =>
    have hb : b = 0 := h b (by simp)
    have := ih fun x hx => h x (by simp [hx])
    simp [fracVal, hb, this]

lemma fracVal_lower {l : List ℚ} (h : ∀ b ∈ l, b = 0 ∨ b = 1)
    (hnz : ¬ ∀ b ∈ l, b = 0) : (2 : ℚ) ^ (-(l.length : ℤ)) ≤ fracVal l := by
  induction l with
  | nil => exact absurd (by simp) hnz
  | cons b l ih =>
    have hval : ∀ x ∈ l, x = 0 ∨ x = 1 := fun x hx => h x (by simp [hx])
    have hlen : (2 : ℚ) ^ (-((b :: l).length : ℤ)) = 2 ^ (-(l.length : ℤ)) / 2 := by
      simpa using two_zpow_neg_succ l.length
    rcases h b (by simp) with hb | hb
    · have hnz' : ¬ ∀ x ∈ l, x = 0 := by
        intro hall
        apply hnz
        intro x hx
        rcases List.mem_cons.mp hx with h1 | h1
        · rw [h1, hb]
        · exact hall x h1
      have hih := ih hval hnz'
      rw [hlen, fracVal, hb]
      linarith
    · have h0 : 0 ≤ fracVal l := fracVal_nonneg hval
      have hhalf : (2 : ℚ) ^ (-((b :: l).length : ℤ)) ≤ 1 / 2 := by
        simpa using two_zpow_le_half l.length
      have hfv : (1 : ℚ) / 2 ≤ fracVal (b :: l) := by
        rw [fracVal, hb]
        linarith
      linarith

lemma fracVal_replicate_append_one (n : ℕ) :
    fracVal (List.replicate n (0 : ℚ) ++ [1]) = (2 : ℚ) ^ (-((n : ℤ) + 1)) := by
  induction n with
  | zero => norm_num [fracVal]
  | succ n ih =>
    rw [List.replicate_succ, List.cons_append, fracVal, ih]
    push_cast
    rw [show -((n : ℤ) + 1 + 1) = -((n + 1 : ℤ)) + -1 by ring,
      zpow_add₀ (by norm_num : (2:ℚ) ≠ 0), zpow_neg_one]
    ring

lemma fracVal_sum (l : List ℚ) :
    fracVal l = ∑ i ∈ Finset.range l.length, l.getD i 0 * (2 : ℚ) ^ (-((i : ℤ) + 1)) := by
  induction l with
  | nil => simp [fracVal]
  | cons b l ih =>
    have h0 : (b :: l).getD 0 0 * (2 : ℚ) ^ (-(((0 : ℕ) : ℤ) + 1)) = b / 2 := by
      rw [List.getD_cons_zero, show (-(((0 : ℕ) : ℤ) + 1)) = (-1 : ℤ) by norm_num,
        zpow_neg_one]
      ring
    have hterm : ∀ i ∈ Finset.range l.length,
        (b :: l).getD (i + 1) 0 * (2 : ℚ) ^ (-((((i + 1 : ℕ)) : ℤ) + 1))
          = l.getD i 0 * (2 : ℚ) ^ (-((i : ℤ) + 1)) / 2 := by
      intro i _
      have he : (-((((i + 1 : ℕ)) : ℤ) + 1)) = -((i : ℤ) + 1) + -1 := by push_cast; ring
      rw [List.getD_cons_succ, he, zpow_add₀ (by norm_num : (2:ℚ) ≠ 0), zpow_neg_one]
      ring
    rw [fracVal, ih, List.length_cons, Finset.sum_range_succ',
      Finset.sum_congr rfl hterm, h0, ← Finset.sum_div]
    ring

/-! ### `extractBits` lemmas -/

lemma extractBits_length (f : ℚ) (n : ℕ) : (extractBits f n).length = n := by
  induction n generalizing f with
  | zero => rfl
  | succ n ih => by_cases h : 1 ≤ 2 * f <;> simp [extractBits, h, ih]

lemma extractBits_valid (f : ℚ) (n : ℕ) : ∀ b ∈ extractBits f n, b = 0 ∨ b = 1 := by
  induction n generalizing f with
  | zero => intro b hb; simp [extractBits] at hb
  | succ n ih =>
    intro b hb
    by_cases h : 1 ≤ 2 * f
    · rw [extractBits, if_pos h] at hb
      rcases List.mem_cons.mp hb with h1 | h1
      · right; exact h1
      · exact ih _ b h1
    · rw [extractBits, if_neg h] at hb
      rcases List.mem_cons.mp hb with h1 | h1
      · left; exact h1
      · exact ih _ b h1

lemma extractBits_le {f : ℚ} (hf : 0 ≤ f) (n : ℕ) : fracVal (extractBits f n) ≤ f := by
  induction n generalizing f with
  | zero => simpa [extractBits, fracVal]
  | succ n ih =>
    by_cases h : 1 ≤ 2 * f
    · have h' : 0 ≤ 2 * f - 1 := by linarith
      have := ih h'
      simp only [extractBits, if_pos h, fracVal]
      linarith
    · have h' : 0 ≤ 2 * f := by linarith
      have := ih h'
      simp only [extractBits, if_neg h, fracVal]
      linarith

lemma extractBits_gt {f : ℚ} (hf : f < 1) (n : ℕ) :
    f < fracVal (extractBits f n) + (2 : ℚ) ^ (-(n : ℤ)) := by
  induction n generalizing f with
  | zero => simpa [extractBits, fracVal]
  | succ n ih =>
    have hsplit : (2 : ℚ) ^ (-((n + 1 : ℕ) : ℤ)) = 2 ^ (-(n : ℤ)) / 2 := by
      push_cast
      exact two_zpow_neg_succ n
    by_cases h : 1 ≤ 2 * f
    · have h' : 2 * f - 1 < 1 := by linarith
      have := ih h'
      simp only [extractBits, if_pos h, fracVal, hsplit]
      linarith
    · have h' : 2 * f < 1 := by linarith
      have := ih h'
      simp only [extractBits, if_neg h, fracVal, hsplit]
      linarith

lemma extractBits_exact {f : ℚ} (hf0 : 0 ≤ f) (hf1 : f < 1) (n : ℕ) (m : ℕ)
    (hm : (m : ℚ) = f * 2 ^ n) : fracVal (extractBits f n) = f := by
  induction n generalizing f m with
  | zero =>
    have : (m : ℚ) = f := by simpa using hm
    have hm0 : m = 0 := by
      by_contra h
      have : (1 : ℚ) ≤ m := by exact_mod_cast Nat.one_le_iff_ne_zero.mpr h
      linarith
    simp [extractBits, fracVal, ← this, hm0]
  | succ n ih =>
    by_cases h : 1 ≤ 2 * f
    · have h1 : 0 ≤ 2 * f - 1 := by linarith
      have h2 : 2 * f - 1 < 1 := by linarith
      have hm2 : ((m - 2 ^ n : ℕ) : ℚ) = (2 * f - 1) * 2 ^ n := by
        have hpow : (0 : ℚ) < 2 ^ n := by positivity
        have hge : (2 ^ n : ℚ) ≤ (m : ℚ) := by
          rw [hm, pow_succ]
          nlinarith [mul_nonneg (by linarith : (0:ℚ) ≤ 2 * f - 1) hpow.le]
        have hge' : 2 ^ n ≤ m := by exact_mod_cast hge
        push_cast [hge']
        rw [hm, pow_succ]
        ring
      have := ih h1 h2 (m - 2 ^ n) hm2
      simp only [extractBits, if_pos h, fracVal, this]
      ring
    · have h1 : 0 ≤ 2 * f := by linarith
      have h2 : 2 * f < 1 := by linarith
      have hm2 : (m : ℚ) = (2 * f) * 2 ^ n := by
        rw [hm, pow_succ]; ring
      have := ih h1 h2 m hm2
      simp only [extractBits, if_neg h, fracVal, this]
      ring

lemma extractBits_half {f : ℚ} (h : 1 / 2 ≤ f) (n : ℕ) :
    1 / 2 ≤ fracVal (extractBits f (n + 1)) := by
  have h2 : 1 ≤ 2 * f := by linarith
  have hrest : 0 ≤ fracVal (extractBits (2 * f - 1) n) :=
    fracVal_nonneg (extractBits_valid _ n)
  simp only [extractBits, if_pos h2, fracVal]
  linarith

/-! ### `carryStep` lemmas -/

lemma carryStep_replicate_one (n : ℕ) :
    carryStep (List.replicate n (1 : ℚ)) = (List.replicate n 0, true) := by
  induction n with
  | zero => rfl
  | succ n ih => simp [List.replicate_succ, carryStep, ih]

/-! ### Fold min/max lemmas (`np.min`, `np.max`) -/

lemma foldl_min_le_init (l : List ℚ) (x : ℚ) : l.foldl min x ≤ x := by
  induction l generalizing x with
  | nil => exact le_refl x
  | cons b l ih =>
    calc (b :: l).foldl min x = l.foldl min (min x b) := rfl
    _ ≤ min x b := ih _
    _ ≤ x := min_le_left _ _

lemma foldl_min_le_mem {l : List ℚ} {y : ℚ} (x : ℚ) (h : y ∈ l) : l.foldl min x ≤ y := by
  induction l generalizing x with
  | nil => simp at h
  | cons b l ih =>
    rcases List.mem_cons.mp h with h1 | h1
    · calc (b :: l).foldl min x = l.foldl min (min x b) := rfl
      _ ≤ min x b := foldl_min_le_init _ _
      _ ≤ b := min_le_right _ _
      _ = y := h1.symm
    · exact ih _ h1

lemma le_foldl_min {l : List ℚ} {x c : ℚ} (hx : c ≤ x) (h : ∀ y ∈ l, c ≤ y) :
    c ≤ l.foldl min x := by
  induction l generalizing x with
  | nil => exact hx
  | cons b l ih =>
    exact ih (le_min hx (h b (by simp))) fun y hy => h y (by simp [hy])

lemma le_foldr_max_seed (l : List ℚ) (c : ℚ) : c ≤ l.foldr max c := by
  induction l with
  | nil => exact le_refl c
  | cons b l ih => exact le_trans ih (le_max_right _ _)

lemma le_foldr_max_mem {l : List ℚ} {y : ℚ} (c : ℚ) (h : y ∈ l) : y ≤ l.foldr max c := by
  induction l with
  | nil => simp at h
  | cons b l ih =>
    rcases List.mem_cons.mp h with h1 | h1
    · rw [h1]; exact le_max_left _ _
    · exact le_trans (ih h1) (le_max_right _ _)

lemma foldr_max_le {l : List ℚ} {c b : ℚ} (hc : c ≤ b) (h : ∀ y ∈ l, y ≤ b) :
    l.foldr max c ≤ b := by
  induction l with
  | nil => exact hc
  | cons a l ih =>
    exact max_le (h a (by simp)) (ih fun y hy => h y (by simp [hy]))

lemma two_mem_le_length {α : Type} {a b : α} {l : List α} (ha : a ∈ l) (hb : b ∈ l)
    (hne : a ≠ b) : 2 ≤ l.length := by
  cases l with
  | nil => simp at ha
  | cons x l' =>
    cases l' with
    | nil =>
      rw [List.mem_singleton] at ha hb
      exact absurd (ha.trans hb.symm) hne
    | cons y l'' => simp only [List.length_cons]; omega

/-! ### Membership in the enumerated machine-number set -/

lemma mem_allMantissas {t : ℕ} {m : List ℚ} :
    m ∈ allMantissas t ↔ m.length = t ∧ ∀ b ∈ m, b = 0 ∨ b = 1 := by
  induction t generalizing m with
  | zero =>
    simp only [allMantissas, List.mem_singleton]
    constructor
    · rintro rfl; simp
    · rintro ⟨h, -⟩; exact List.length_eq_zero.mp h
  | succ t ih =>
    simp only [allMantissas, List.mem_flatMap]
    constructor
    · rintro ⟨l, hl, hm⟩
      obtain ⟨hlen, hbits⟩ := ih.mp hl
      rcases List.mem_pair.mp hm with rfl | rfl <;>
        refine ⟨by simp [hlen], ?_⟩ <;> intro b hb <;>
        rcases List.mem_cons.mp hb with h1 | h1 <;>
        first
        | exact Or.inl h1
        | exact Or.inr h1
        | exact hbits b h1
    · rintro ⟨hlen, hbits⟩
      cases m with
      | nil => simp at hlen
      | cons b rest =>
        refine ⟨rest, ih.mpr ⟨by simpa using hlen, fun x hx => hbits x (by simp [hx])⟩, ?_⟩
        rcases hbits b (by simp) with h1 | h1 <;> rw [h1] <;> simp

lemma mem_charRange {k k1 k2 : ℤ} : k ∈ charRange k1 k2 ↔ k1 ≤ k ∧ k ≤ k2 := by
  simp only [charRange, List.mem_map, List.mem_range]
  constructor
  · rintro ⟨i, hi, rfl⟩
    omega
  · rintro ⟨h1, h2⟩
    exact ⟨(k - k1).toNat, by omega, by omega⟩

lemma mem_fl2Values {t : ℕ} {k1 k2 : ℤ} {x : ℚ} :
    x ∈ fl2Values t k1 k2 ↔ x = 0 ∨ ∃ m k, m ∈ allMantissas t ∧ ¬ (∀ b ∈ m, b = 0) ∧
      k1 ≤ k ∧ k ≤ k2 ∧ x = fl1core m k := by
  simp only [fl2Values, List.mem_cons, List.mem_flatMap, List.mem_map, List.mem_filter,
    decide_not, Bool.not_eq_eq_eq_not, Bool.not_true, decide_eq_false_iff_not]
  constructor
  · rintro (rfl | ⟨k, hk, m, ⟨hm, hnz⟩, rfl⟩)
    · exact Or.inl rfl
    · obtain ⟨h1, h2⟩ := mem_charRange.mp hk
      exact Or.inr ⟨m, k, hm, hnz, h1, h2, rfl⟩
  · rintro (rfl | ⟨m, k, hm, hnz, h1, h2, rfl⟩)
    · exact Or.inl rfl
    · exact Or.inr ⟨k, mem_charRange.mpr ⟨h1, h2⟩, m, ⟨hm, hnz⟩, rfl⟩

lemma fl1core_cons_zero {rest : List ℚ} {k : ℤ} (hnz : ¬ ∀ b ∈ (0 : ℚ) :: rest, b = 0) :
    fl1core (0 :: rest) k = (1 + fracVal rest) * 3 ^ k := by
  rw [fl1core, if_neg hnz]
  simp

lemma fl1core_cons_one (rest : List ℚ) (k : ℤ) :
    fl1core (1 :: rest) k = -((1 + fracVal rest) * 3 ^ k) := by
  rw [fl1core, if_neg ?_]
  · simp only [List.headI, List.tail_cons, one_ne_zero, if_neg, if_false]
    ring
  · intro h
    have := h 1 (by simp)
    norm_num at this

/-! ### Bounds on the enumerated values and evaluation of `fl2` -/

lemma pos_val_lower {t : ℕ} {k1 k2 : ℤ} {x : ℚ} (ht : 1 ≤ t)
    (hx : x ∈ fl2Values t k1 k2) (hpos : 0 < x) :
    (1 + (2 : ℚ) ^ (1 - (t : ℤ))) * 3 ^ k1 ≤ x := by
  rcases mem_fl2Values.mp hx with rfl | ⟨m, k, hm, hnz, hk1, hk2, rfl⟩
  · exact absurd hpos (lt_irrefl 0)
  · obtain ⟨hlen, hbits⟩ := mem_allMantissas.mp hm
    cases m with
    | nil => rw [List.length_nil] at hlen; omega
    | cons b rest =>
      have hrest : ∀ y ∈ rest, y = 0 ∨ y = 1 := fun y hy => hbits y (by simp [hy])
      have hfv0 : 0 ≤ fracVal rest := fracVal_nonneg hrest
      rcases hbits b (by simp) with hb | hb
      · subst hb
        rw [fl1core_cons_zero hnz]
        have hnzr : ¬ ∀ y ∈ rest, y = 0 := fun hall =>
          hnz (List.forall_mem_cons.mpr ⟨rfl, hall⟩)
        have hlow := fracVal_lower hrest hnzr
        have hlen' : (rest.length : ℤ) = (t : ℤ) - 1 := by
          rw [List.length_cons] at hlen
          omega
        have hlow' : (2 : ℚ) ^ (1 - (t : ℤ)) ≤ fracVal rest := by
          rw [show (1 - (t : ℤ)) = -(rest.length : ℤ) by omega]
          exact hlow
        have h3 : (3 : ℚ) ^ k1 ≤ 3 ^ k := zpow_le_zpow_right₀ (by norm_num) hk1
        have h3p : (0 : ℚ) < 3 ^ k1 := three_zpow_pos k1
        nlinarith [three_zpow_pos k]
      · subst hb
        rw [fl1core_cons_one] at hpos
        have h3 : (0 : ℚ) < 3 ^ k := three_zpow_pos k
        nlinarith

lemma val_upper {t : ℕ} {k1 k2 : ℤ} {x : ℚ} (ht : 1 ≤ t)
    (hx : x ∈ fl2Values t k1 k2) :
    |x| ≤ (2 - (2 : ℚ) ^ (1 - (t : ℤ))) * 3 ^ k2 := by
  have hfac : (1 : ℚ) ≤ 2 - (2 : ℚ) ^ (1 - (t : ℤ)) := by
    have h1 : (2 : ℚ) ^ (1 - (t : ℤ)) ≤ 2 ^ (0 : ℤ) :=
      zpow_le_zpow_right₀ (by norm_num) (by omega)
    rw [zpow_zero] at h1
    linarith
  have h3p : (0 : ℚ) < 3 ^ k2 := three_zpow_pos k2
  rcases mem_fl2Values.mp hx with rfl | ⟨m, k, hm, hnz, hk1, hk2, rfl⟩
  · rw [abs_zero]
    nlinarith
  · obtain ⟨hlen, hbits⟩ := mem_allMantissas.mp hm
    cases m with
    | nil => rw [List.length_nil] at hlen; omega
    | cons b rest =>
      have hrest : ∀ y ∈ rest, y = 0 ∨ y = 1 := fun y hy => hbits y (by simp [hy])
      have hfv0 : 0 ≤ fracVal rest := fracVal_nonneg hrest
      have hlen' : (rest.length : ℤ) = (t : ℤ) - 1 := by
        rw [List.length_cons] at hlen
        omega
      have hfv : fracVal rest ≤ 1 - (2 : ℚ) ^ (1 - (t : ℤ)) := by
        rw [show (1 - (t : ℤ)) = -(rest.length : ℤ) by omega]
        exact fracVal_le hrest
      have h3 : (3 : ℚ) ^ k ≤ 3 ^ k2 := zpow_le_zpow_right₀ (by norm_num) hk2
      have h3kp : (0 : ℚ) < 3 ^ k := three_zpow_pos k
      have habs : |fl1core (b :: rest) k| = (1 + fracVal rest) * 3 ^ k := by
        rcases hbits b (by simp) with hb | hb <;> subst hb
        · rw [fl1core_cons_zero hnz]
          exact abs_of_nonneg (by nlinarith)
        · rw [fl1core_cons_one, abs_neg]
          exact abs_of_nonneg (by nlinarith)
      rw [habs]
      nlinarith

lemma fl1core_min_mantissa (t : ℕ) (k1 : ℤ) (ht : 2 ≤ t) :
    fl1core (0 :: (List.replicate (t - 2) 0 ++ [1])) k1
      = (1 + (2 : ℚ) ^ (1 - (t : ℤ))) * 3 ^ k1 := by
  have hnz : ¬ ∀ b ∈ (0 : ℚ) :: (List.replicate (t - 2) 0 ++ [1]), b = 0 := by
    intro hall
    have := hall 1 (by simp)
    norm_num at this
  rw [fl1core_cons_zero hnz, fracVal_replicate_append_one,
    show (-(((t - 2 : ℕ) : ℤ) + 1)) = 1 - (t : ℤ) by omega]

lemma eps0_mem {t : ℕ} {k1 k2 : ℤ} (ht : 2 ≤ t) (hk : k1 ≤ k2) :
    (1 + (2 : ℚ) ^ (1 - (t : ℤ))) * 3 ^ k1 ∈ fl2Values t k1 k2 := by
  apply mem_fl2Values.mpr
  refine Or.inr ⟨0 :: (List.replicate (t - 2) 0 ++ [1]), k1, ?_, ?_, le_refl k1, hk,
    (fl1core_min_mantissa t k1 ht).symm⟩
  · apply mem_allMantissas.mpr
    constructor
    · simp
      omega
    · intro b hb
      rcases List.mem_cons.mp hb with h1 | h1
      · exact Or.inl h1
      · rcases List.mem_append.mp h1 with h2 | h2
        · exact Or.inl (List.eq_of_mem_replicate h2)
        · rw [List.mem_singleton] at h2
          exact Or.inr h2
  · intro hall
    have := hall 1 (by simp)
    norm_num at this

lemma fl2_eq_some {t : ℕ} {k1 k2 : ℤ} (ht : 2 ≤ t) (hk : k1 < k2) :
    ∃ M e1 n, fl2 t k1 k2 = some (M, (1 + (2 : ℚ) ^ (1 - (t : ℤ))) * 3 ^ k1, e1, n) ∧
      0 < M ∧ (1 + (2 : ℚ) ^ (1 - (t : ℤ))) * 3 ^ k1 ≤ M ∧
      M ≤ (2 - (2 : ℚ) ^ (1 - (t : ℤ))) * 3 ^ k2 ∧ 2 ≤ n := by
  have hv0pos : 0 < (1 + (2 : ℚ) ^ (1 - (t : ℤ))) * 3 ^ k1 := by positivity
  have hv0nums : (1 + (2 : ℚ) ^ (1 - (t : ℤ))) * 3 ^ k1 ∈ (fl2Values t k1 k2).dedup :=
    List.mem_dedup.mpr (eps0_mem ht hk.le)
  have hv0p : (1 + (2 : ℚ) ^ (1 - (t : ℤ))) * 3 ^ k1 ∈
      ((fl2Values t k1 k2).dedup.filter fun x => 0 < x) :=
    List.mem_filter.mpr ⟨hv0nums, by simpa using hv0pos⟩
  rcases hfil : ((fl2Values t k1 k2).dedup.filter fun x => 0 < x) with - | ⟨p, ps⟩
  · rw [hfil] at hv0p
    simp at hv0p
  · have hmemPos : ∀ y ∈ p :: ps, y ∈ fl2Values t k1 k2 ∧ 0 < y := by
      intro y hy
      rw [← hfil] at hy
      have h1 := List.mem_filter.mp hy
      exact ⟨List.mem_dedup.mp h1.1, by simpa using h1.2⟩
    have heps : ps.foldl min p = (1 + (2 : ℚ) ^ (1 - (t : ℤ))) * 3 ^ k1 := by
      apply le_antisymm
      · rw [hfil] at hv0p
        rcases List.mem_cons.mp hv0p with h1 | h1
        · rw [← h1]
          exact foldl_min_le_init _ _
        · exact foldl_min_le_mem _ h1
      · exact le_foldl_min
          (pos_val_lower (by omega) (hmemPos p (by simp)).1 (hmemPos p (by simp)).2)
          fun y hy => pos_val_lower (by omega) (hmemPos y (by simp [hy])).1
            (hmemPos y (by simp [hy])).2
    obtain ⟨M, e1, n, heq, hMdef, hndef⟩ :
        ∃ M e1 n, fl2 t k1 k2 = some (M, ps.foldl min p, e1, n) ∧
          M = ((fl2Values t k1 k2).dedup.map fun x => |x|).foldr max 0 ∧
          n = (fl2Values t k1 k2).dedup.length := by
      rw [fl2, if_neg (by omega), if_neg (by omega), hfil]
      exact ⟨_, _, _, rfl, rfl, rfl⟩
    rw [heps] at heq
    have hvM : (1 + (2 : ℚ) ^ (1 - (t : ℤ))) * 3 ^ k1 ≤ M := by
      rw [hMdef]
      calc (1 + (2 : ℚ) ^ (1 - (t : ℤ))) * 3 ^ k1
          = |(1 + (2 : ℚ) ^ (1 - (t : ℤ))) * 3 ^ k1| := (abs_of_pos hv0pos).symm
      _ ≤ _ := le_foldr_max_mem _ (List.mem_map_of_mem _ hv0nums)
    have hMup : M ≤ (2 - (2 : ℚ) ^ (1 - (t : ℤ))) * 3 ^ k2 := by
      rw [hMdef]
      apply foldr_max_le
      · have h1 : (2 : ℚ) ^ (1 - (t : ℤ)) ≤ 2 ^ (0 : ℤ) :=
          zpow_le_zpow_right₀ (by norm_num) (by omega)
        rw [zpow_zero] at h1
        nlinarith [three_zpow_pos k2]
      · intro y hy
        obtain ⟨x, hxmem, rfl⟩ := List.mem_map.mp hy
        exact val_upper (by omega) (List.mem_dedup.mp hxmem)
    have hn2 : 2 ≤ n := by
      rw [hndef]
      exact two_mem_le_length hv0nums
        (List.mem_dedup.mpr (mem_fl2Values.mpr (Or.inl rfl))) hv0pos.ne'
    exact ⟨M, e1, n, heq, lt_of_lt_of_le hv0pos hvM, hvM, hMup, hn2⟩

lemma fl2_some_params {t : ℕ} {k1 k2 : ℤ} {x : ℚ × ℚ × Option ℚ × ℕ}
    (h : fl2 t k1 k2 = some x) : 1 ≤ t ∧ k1 < k2 := by
  rw [fl2] at h
  by_cases ht : t = 0
  · rw [if_pos ht] at h
    exact Option.noConfusion h
  · rw [if_neg ht] at h
    by_cases hk : k2 ≤ k1
    · rw [if_pos hk] at h
      exact Option.noConfusion h
    · exact ⟨by omega, by omega⟩

lemma fl2_t1 {k1 k2 : ℤ} (hk : k1 < k2) : fl2 1 k1 k2 = none := by
  rw [fl2, if_neg one_ne_zero, if_neg (by omega)]
  have hfil : ((fl2Values 1 k1 k2).dedup.filter fun x => 0 < x) = [] := by
    rw [List.filter_eq_nil_iff]
    intro x hx
    simp only [decide_eq_true_eq, not_lt]
    rcases mem_fl2Values.mp (List.mem_dedup.mp hx) with rfl | ⟨m, k, hm, hnz, hk1, hk2, rfl⟩
    · exact le_refl 0
    · obtain ⟨hlen, hbits⟩ := mem_allMantissas.mp hm
      cases m with
      | nil => simp at hlen
      | cons b rest =>
        have hrest : rest = [] := by
          rw [List.length_cons] at hlen
          exact List.length_eq_zero.mp (by omega)
        subst hrest
        rcases hbits b (by simp) with hb | hb
        · subst hb
          exact absurd (by simp) hnz
        · subst hb
          rw [fl1core_cons_one]
          have := three_zpow_pos k
          have hfv : fracVal ([] : List ℚ).tail = 0 := rfl
          simp only [List.tail_cons] at *
          nlinarith [fracVal_nonneg (l := ([] : List ℚ)) (by simp)]
  rw [hfil]

lemma fl2_some_t2 {t : ℕ} {k1 k2 : ℤ} {x : ℚ × ℚ × Option ℚ × ℕ}
    (h : fl2 t k1 k2 = some x) : 2 ≤ t := by
  obtain ⟨ht, hk⟩ := fl2_some_params h
  rcases Nat.lt_or_ge t 2 with h2 | h2
  · have ht1 : t = 1 := by omega
    subst ht1
    rw [fl2_t1 hk] at h
    exact Option.noConfusion h
  · exact h2

/-! ### Validation of `fl1` on well-formed vectors -/

lemma fl1_eq_ok {v : List ℚ} (h2 : 2 ≤ v.length)
    (hb : ∀ b ∈ v.dropLast, b = 0 ∨ b = 1) (hd : (v.getLastD 0).den = 1) :
    fl1 v = .ok (fl1core v.dropLast (v.getLastD 0).num) := by
  rw [fl1, if_neg (by omega), if_neg (not_not_intro hb), if_neg (not_not_intro hd)]

lemma tail_getD (l : List ℚ) (i : ℕ) : l.tail.getD i 0 = l.getD (i + 1) 0 := by
  cases l <;> rfl

/-! ### Decoding the truncated vector built by `fl3` -/

lemma truncVec_dropLast (r : ℚ) (t : ℕ) (k : ℤ) :
    (truncVec r t k).dropLast = (if 0 < r then (0 : ℚ) else 1) :: truncBits |r| k t := by
  have hsplit : truncVec r t k
      = ((if 0 < r then (0 : ℚ) else 1) :: truncBits |r| k t) ++ [(k : ℚ)] := rfl
  rw [hsplit, List.dropLast_concat]

lemma truncVec_getLastD (r : ℚ) (t : ℕ) (k : ℤ) :
    (truncVec r t k).getLastD 0 = (k : ℚ) := by
  have hsplit : truncVec r t k
      = ((if 0 < r then (0 : ℚ) else 1) :: truncBits |r| k t) ++ [(k : ℚ)] := rfl
  rw [hsplit, List.getLastD_concat]

lemma truncVec_length (r : ℚ) (t : ℕ) (k : ℤ) :
    (truncVec r t k).length = t - 1 + 2 := by
  rw [truncVec]
  simp [truncBits, extractBits_length]

lemma fl1_truncVec (r : ℚ) (t : ℕ) (k : ℤ) :
    fl1 (truncVec r t k)
      = .ok (fl1core ((if 0 < r then (0 : ℚ) else 1) :: truncBits |r| k t) k) := by
  have hb : ∀ b ∈ (truncVec r t k).dropLast, b = 0 ∨ b = 1 := by
    rw [truncVec_dropLast]
    intro b hb
    rcases List.mem_cons.mp hb with h1 | h1
    · by_cases hr : 0 < r
      · rw [if_pos hr] at h1
        exact Or.inl h1
      · rw [if_neg hr] at h1
        exact Or.inr h1
    · exact extractBits_valid _ _ b h1
  have heq := fl1_eq_ok (v := truncVec r t k) (by rw [truncVec_length]; omega) hb
    (by rw [truncVec_getLastD]; exact Rat.den_intCast k)
  rw [heq, truncVec_dropLast, truncVec_getLastD, Rat.num_intCast]

/-- On a normalized grid representation `a = (1 + m/2^(t-1)) * 3^k` with
`m < 2^(t-1)`, the characteristic recovered by `Int.log` is exactly `k`. -/
lemma grid_log {a : ℚ} {m : ℕ} {k : ℤ} {t : ℕ} (hm : m < 2 ^ (t - 1))
    (ha : a = (1 + (m : ℚ) / 2 ^ (t - 1)) * 3 ^ k) :
    Int.log 3 a = k ∧ a / 3 ^ k - 1 = (m : ℚ) / 2 ^ (t - 1) := by
  have hpw : (0 : ℚ) < 2 ^ (t - 1) := by positivity
  have hm0 : (0 : ℚ) ≤ (m : ℚ) / 2 ^ (t - 1) := by positivity
  have hm1 : (m : ℚ) / 2 ^ (t - 1) < 1 := by
    rw [div_lt_one hpw]
    exact_mod_cast hm
  have h3k : (0 : ℚ) < 3 ^ k := three_zpow_pos k
  have ha0 : 0 < a := by
    rw [ha]
    nlinarith
  have hlow : (3 : ℚ) ^ k ≤ a := by
    rw [ha]
    nlinarith
  have hhigh : a < (3 : ℚ) ^ (k + 1) := by
    rw [ha, zpow_add_one₀ (by norm_num : (3:ℚ) ≠ 0)]
    nlinarith
  constructor
  · apply le_antisymm
    · have := (Int.lt_zpow_iff_log_lt (b := 3) (by norm_num) ha0).mp (by push_cast; exact hhigh)
      omega
    · exact (Int.zpow_le_iff_le_log (b := 3) (by norm_num) ha0).mp (by push_cast; exact hlow)
  · rw [ha]
    field_simp
    ring

/-! ### Structural reductions of `fl3` on the in-range path -/

lemma fl2_range_facts {t : ℕ} {k1 k2 : ℤ} {M e : ℚ} {e1 : Option ℚ} {n : ℕ}
    (h2 : fl2 t k1 k2 = some (M, e, e1, n)) :
    2 ≤ t ∧ k1 < k2 ∧ e = (1 + (2 : ℚ) ^ (1 - (t : ℤ))) * 3 ^ k1 ∧
      M ≤ (2 - (2 : ℚ) ^ (1 - (t : ℤ))) * 3 ^ k2 := by
  have ht2 := fl2_some_t2 h2
  have hk := (fl2_some_params h2).2
  obtain ⟨M', e1', n', heq, -, -, hMup, -⟩ := fl2_eq_some ht2 hk
  rw [h2] at heq
  simp only [Option.some.injEq, Prod.mk.injEq] at heq
  obtain ⟨hMeq, heeq, -, -⟩ := heq
  exact ⟨ht2, hk, heeq, hMeq ▸ hMup⟩

lemma fl3core_no_trigger {r : ℚ} {t : ℕ} {k1 k2 k0 : ℤ}
    (hclamp : clampChar (Int.log 3 |r|) k1 k2 = k0)
    (hq : ¬ (1 / 2 < |fl1core ((if 0 < r then (0 : ℚ) else 1) :: truncBits |r| k0 t) k0 - r|
      / |r|)) :
    fl3core r t k1 k2 = .ok (truncVec r t k0) := by
  rw [fl3core, hclamp, fl1_truncVec]
  dsimp only
  rw [if_neg hq]

lemma fl3core_trigger {r : ℚ} {t : ℕ} {k1 k2 k0 : ℤ}
    (hclamp : clampChar (Int.log 3 |r|) k1 k2 = k0)
    (hq : 1 / 2 < |fl1core ((if 0 < r then (0 : ℚ) else 1) :: truncBits |r| k0 t) k0 - r|
      / |r|) :
    fl3core r t k1 k2
      = roundCorrect (if 0 < r then (0 : ℚ) else 1) (truncBits |r| k0 t) k0 k2 t := by
  rw [fl3core, hclamp, fl1_truncVec]
  dsimp only
  rw [if_pos hq]

lemma fl3_to_core {r : ℚ} {t : ℕ} {k1 k2 : ℤ} {M e : ℚ} {e1 : Option ℚ} {n : ℕ}
    (h2 : fl2 t k1 k2 = some (M, e, e1, n)) (hr0 : r ≠ 0)
    (he : e ≤ |r|) (hM : |r| ≤ M) :
    fl3 r t k1 k2 = fl3core r t k1 k2 := by
  obtain ⟨ht2, hk, -, -⟩ := fl2_range_facts h2
  rw [fl3, if_neg (by omega), if_neg (by omega), if_neg hr0, h2]
  dsimp only
  rw [if_neg (not_lt.mpr he), if_neg (not_lt.mpr hM)]

lemma roundCorrect_all_zero (s : ℚ) (t : ℕ) (k k2 : ℤ) (ht : 2 ≤ t) :
    roundCorrect s (List.replicate (t - 1) 0) k k2 t
      = .ok (s :: (List.replicate (t - 2) 0 ++ [1]) ++ [(k : ℚ)]) := by
  obtain ⟨u, hu⟩ : ∃ u, t - 1 = u + 1 := ⟨t - 2, by omega⟩
  have hu2 : t - 2 = u := by omega
  have hrev : (List.replicate (t - 1) (0 : ℚ)).reverse = 0 :: List.replicate u 0 := by
    rw [List.reverse_replicate, hu, List.replicate_succ]
  have hcs : carryStep ((0 : ℚ) :: List.replicate u 0) = (1 :: List.replicate u 0, false) := by
    rw [carryStep, if_pos rfl]
  rw [roundCorrect, hrev, hcs]
  dsimp only
  rw [if_neg (by simp), List.reverse_cons, List.reverse_replicate, hu2]

lemma fl1_min_vec (t : ℕ) (k : ℤ) (ht : 2 ≤ t) :
    fl1 ((0 : ℚ) :: (List.replicate (t - 2) 0 ++ [1]) ++ [(k : ℚ)])
      = .ok ((1 + (2 : ℚ) ^ (1 - (t : ℤ))) * 3 ^ k) := by
  have hb : ∀ b ∈ (0 : ℚ) :: (List.replicate (t - 2) 0 ++ [1]), b = 0 ∨ b = 1 := by
    intro b hb
    rcases List.mem_cons.mp hb with h1 | h1
    · exact Or.inl h1
    · rcases List.mem_append.mp h1 with h2 | h2
      · exact Or.inl (List.eq_of_mem_replicate h2)
      · rw [List.mem_singleton] at h2
        exact Or.inr h2
  have hlen : ((0 : ℚ) :: (List.replicate (t - 2) 0 ++ [1]) ++ [(k : ℚ)]).length
      = t - 2 + 3 := by
    simp
  have hdrop : ((0 : ℚ) :: (List.replicate (t - 2) 0 ++ [1]) ++ [(k : ℚ)]).dropLast
      = (0 : ℚ) :: (List.replicate (t - 2) 0 ++ [1]) := List.dropLast_concat ..
  have hlast : ((0 : ℚ) :: (List.replicate (t - 2) 0 ++ [1]) ++ [(k : ℚ)]).getLastD 0
      = (k : ℚ) := List.getLastD_concat ..
  rw [fl1_eq_ok (by rw [hlen]; omega) (by rw [hdrop]; exact hb)
      (by rw [hlast]; exact Rat.den_intCast k), hdrop, hlast, Rat.num_intCast,
    fl1core_min_mantissa t k ht]

lemma fl3_eq_truncVec {r : ℚ} {t : ℕ} {k1 k2 k0 : ℤ} {M e : ℚ} {e1 : Option ℚ} {n : ℕ}
    (h2 : fl2 t k1 k2 = some (M, e, e1, n)) (hr0 : r ≠ 0)
    (he0 : e ≤ |r|) (hM : |r| ≤ M) (har : 0 < |r|)
    (hclamp : clampChar (Int.log 3 |r|) k1 k2 = k0)
    (herr : |fl1core ((if 0 < r then (0 : ℚ) else 1) :: truncBits |r| k0 t) k0 - r|
      ≤ |r| / 2) :
    fl3 r t k1 k2 = .ok (truncVec r t k0) := by
  have hnt : ¬ (1 / 2 <
      |fl1core ((if 0 < r then (0 : ℚ) else 1) :: truncBits |r| k0 t) k0 - r| / |r|) := by
    push_neg
    rw [div_le_iff₀ har]
    linarith
  exact (fl3_to_core h2 hr0 he0 hM).trans (fl3core_no_trigger hclamp hnt)

lemma truncBits_exact {a : ℚ} {t : ℕ} {k0 : ℤ} {m : ℕ}
    (hfdef : fracOf a k0 = a / 3 ^ k0 - 1)
    (hf0ge : 0 ≤ a / 3 ^ k0 - 1) (hf0lt : a / 3 ^ k0 - 1 < 1)
    (hfrac : a / 3 ^ k0 - 1 = (m : ℚ) / 2 ^ (t - 1)) :
    fracVal (truncBits a k0 t) = a / 3 ^ k0 - 1 := by
  rw [truncBits, hfdef]
  apply extractBits_exact hf0ge hf0lt (t - 1) m
  rw [hfrac]
  have hp : (0 : ℚ) < 2 ^ (t - 1) := by positivity
  field_simp

lemma one_add_frac {a : ℚ} (k0 : ℤ) :
    (1 + (a / 3 ^ k0 - 1)) * 3 ^ k0 = a := by
  have h3 : (3 : ℚ) ^ k0 ≠ 0 := (three_zpow_pos k0).ne'
  field_simp

/-- The master in-range characterization of a successful `fl3` run: under the
`characterize` range hypotheses, `fl3` succeeds, returns a well-formed vector
with sign bit matching `r`, bit mantissa, characteristic in `[k1, k2]`, the
decode of the result is within relative error 1/2 of `r`, and the run is
exact on mantissa grid points, except for positive `r` whose fractional part
is zero (the truncated mantissa then collides with the zero encoding). -/
lemma fl3_run_spec {r : ℚ} {t : ℕ} {k1 k2 : ℤ} {M e : ℚ} {e1 : Option ℚ} {n : ℕ}
    (h2 : fl2 t k1 k2 = some (M, e, e1, n)) (he0 : e ≤ |r|) (hM : |r| ≤ M) :
    ∃ (v : List ℚ) (q : ℚ) (kf : ℤ) (bits : List ℚ),
      fl3 r t k1 k2 = .ok v ∧
      v = (if 0 < r then (0 : ℚ) else 1) :: bits ++ [(kf : ℚ)] ∧
      bits.length = t - 1 ∧ (∀ b ∈ bits, b = 0 ∨ b = 1) ∧
      k1 ≤ kf ∧ kf ≤ k2 ∧
      fl1 v = .ok q ∧ |q - r| ≤ |r| / 2 ∧
      (∀ (m : ℕ) (k : ℤ), m < 2 ^ (t - 1) → k1 ≤ k → k ≤ k2 →
        (0 < r → m ≠ 0 → r = (1 + (m : ℚ) / 2 ^ (t - 1)) * 3 ^ k → q = r) ∧
        (r < 0 → r = -((1 + (m : ℚ) / 2 ^ (t - 1)) * 3 ^ k) → q = r)) := by
  obtain ⟨ht2, hk, heval, hMup⟩ := fl2_range_facts h2
  have he := he0
  rw [heval] at he
  have h2tpos : (0 : ℚ) < 2 ^ (1 - (t : ℤ)) := two_zpow_pos _
  have h2thalf : (2 : ℚ) ^ (1 - (t : ℤ)) ≤ 1 / 2 := by
    have h1 := zpow_le_zpow_right₀ (by norm_num : (1 : ℚ) ≤ 2) (by omega : 1 - (t : ℤ) ≤ -1)
    rw [zpow_neg_one, show ((2 : ℚ))⁻¹ = 1 / 2 by norm_num] at h1
    exact h1
  have hepos : 0 < e := by rw [heval]; positivity
  have har : 0 < |r| := lt_of_lt_of_le hepos he0
  have hr0 : r ≠ 0 := abs_pos.mp har
  have h3k0' := Int.zpow_log_le_self (b := 3) (R := ℚ) (by norm_num) har
  have ha3k0' := Int.lt_zpow_succ_log_self (b := 3) (R := ℚ) (by norm_num) |r|
  push_cast at h3k0' ha3k0'
  set k0 := Int.log 3 |r| with hk0def
  have h3k0pos : (0 : ℚ) < 3 ^ k0 := three_zpow_pos k0
  have h3k1pos : (0 : ℚ) < 3 ^ k1 := three_zpow_pos k1
  have hk1k0 : k1 ≤ k0 := by
    apply (Int.zpow_le_iff_le_log (by norm_num) har).mp
    push_cast
    nlinarith [mul_pos h2tpos h3k1pos]
  have hk0k2 : k0 ≤ k2 := by
    have h3k2 : (0 : ℚ) < 3 ^ k2 := three_zpow_pos k2
    have h1 : |r| < (3 : ℚ) ^ (k2 + 1) := by
      rw [zpow_add_one₀ (by norm_num : (3 : ℚ) ≠ 0)]
      nlinarith [mul_pos h2tpos h3k2]
    have h2' := (Int.lt_zpow_iff_log_lt (b := 3) (by norm_num) har).mp (by push_cast; exact h1)
    omega
  have hclamp : clampChar k0 k1 k2 = k0 := by
    rw [clampChar, if_neg (by omega), if_neg (by omega)]
  have hmv3 : |r| < 3 * 3 ^ k0 := by
    calc |r| < 3 ^ (k0 + 1) := ha3k0'
    _ = 3 ^ k0 * 3 := zpow_add_one₀ (by norm_num : (3 : ℚ) ≠ 0) k0
    _ = 3 * 3 ^ k0 := mul_comm _ _
  have hmv1 : 1 ≤ |r| / 3 ^ k0 := (one_le_div h3k0pos).mpr h3k0'
  have hf0nonneg : ¬ (|r| / 3 ^ k0 - 1 < 0) := by push_neg; linarith
  have hbits_valid : ∀ b ∈ truncBits |r| k0 t, b = 0 ∨ b = 1 := by
    rw [truncBits]
    exact extractBits_valid _ _
  have hbits_len : (truncBits |r| k0 t).length = t - 1 := by
    rw [truncBits]
    exact extractBits_length _ _
  have htv0 : 0 ≤ fracVal (truncBits |r| k0 t) := fracVal_nonneg hbits_valid
  by_cases hf1 : 1 ≤ |r| / 3 ^ k0 - 1
  · -- clamped-fraction case: |r| / 3^k0 ∈ [2, 3), fraction clamped to 1 - 2^-52
    obtain ⟨ε, hεdef, hεpos, hεhalf⟩ :
        ∃ ε : ℚ, ε = (2 : ℚ) ^ (-52 : ℤ) ∧ 0 < ε ∧ ε ≤ 1 / 2 := by
      refine ⟨(2 : ℚ) ^ (-52 : ℤ), rfl, two_zpow_pos _, ?_⟩
      have h1 := zpow_le_zpow_right₀ (by norm_num : (1 : ℚ) ≤ 2) (by omega : (-52 : ℤ) ≤ -1)
      rw [zpow_neg_one, show ((2 : ℚ))⁻¹ = 1 / 2 by norm_num] at h1
      exact h1
    have hfdef : fracOf |r| k0 = 1 - ε := by
      rw [fracOf, if_neg hf0nonneg, if_pos hf1, hεdef]
    obtain ⟨u, hu⟩ : ∃ u, t - 1 = u + 1 := ⟨t - 2, by omega⟩
    have hbits_le : fracVal (truncBits |r| k0 t) ≤ 1 - ε := by
      rw [truncBits, hfdef]
      exact extractBits_le (by linarith) _
    have hbits_half : 1 / 2 ≤ fracVal (truncBits |r| k0 t) := by
      rw [truncBits, hfdef, hu]
      exact extractBits_half (by linarith) u
    have hge2 : 2 * (3 : ℚ) ^ k0 ≤ |r| := by
      have h1 : 2 ≤ |r| / 3 ^ k0 := by linarith
      calc 2 * (3 : ℚ) ^ k0 ≤ (|r| / 3 ^ k0) * 3 ^ k0 := by nlinarith
      _ = |r| := by field_simp
    have hq_le : (1 + fracVal (truncBits |r| k0 t)) * 3 ^ k0 ≤ |r| := by
      nlinarith [hbits_le, hεpos]
    have herr_mag : |r| - (1 + fracVal (truncBits |r| k0 t)) * 3 ^ k0 ≤ |r| / 2 := by
      nlinarith [mul_le_mul_of_nonneg_right
        (show (3 : ℚ) / 2 ≤ 1 + fracVal (truncBits |r| k0 t) by linarith) h3k0pos.le]
    have hqval : fl1core ((if 0 < r then (0 : ℚ) else 1) :: truncBits |r| k0 t) k0
        = (if 0 < r then (1 : ℚ) else -1) * ((1 + fracVal (truncBits |r| k0 t)) * 3 ^ k0) := by
      by_cases hs : 0 < r
      · rw [if_pos hs, if_pos hs, fl1core_cons_zero ?_, one_mul]
        intro hall
        have hz : ∀ b ∈ truncBits |r| k0 t, b = 0 := fun b hb =>
          hall b (List.mem_cons_of_mem _ hb)
        rw [fracVal_all_zero hz] at hbits_half
        norm_num at hbits_half
      · rw [if_neg hs, if_neg hs, fl1core_cons_one]
        ring
    have herr : |fl1core ((if 0 < r then (0 : ℚ) else 1) :: truncBits |r| k0 t) k0 - r|
        ≤ |r| / 2 := by
      rw [hqval]
      by_cases hs : 0 < r
      · rw [if_pos hs, one_mul]
        have hr_eq : |r| = r := abs_of_pos hs
        rw [abs_of_nonpos (by linarith [hq_le, hr_eq])]
        linarith [herr_mag, hr_eq]
      · have hneg : r < 0 := lt_of_le_of_ne (not_lt.mp hs) hr0
        rw [if_neg hs]
        have hr_eq : |r| = -r := abs_of_neg hneg
        rw [abs_of_nonneg (by linarith [hq_le, hr_eq])]
        linarith [herr_mag, hr_eq]
    refine ⟨truncVec r t k0, _, k0, truncBits |r| k0 t,
      fl3_eq_truncVec h2 hr0 he0 hM har hclamp herr, rfl, hbits_len, hbits_valid,
      hk1k0, hk0k2, fl1_truncVec .., herr, ?_⟩
    intro m k hm hkk1 hkk2
    have hp2 : (0 : ℚ) < 2 ^ (t - 1) := by positivity
    have hm1 : (m : ℚ) / 2 ^ (t - 1) < 1 := by
      rw [div_lt_one hp2]
      exact_mod_cast hm
    constructor
    · intro hs hm0 hgrid
      exfalso
      have ha_eq : |r| = (1 + (m : ℚ) / 2 ^ (t - 1)) * 3 ^ k := by
        rw [abs_of_pos hs]
        exact hgrid
      obtain ⟨hklog, hfrac⟩ := grid_log hm ha_eq
      rw [← hk0def] at hklog
      rw [← hklog] at hfrac
      linarith
    · intro hs hgrid
      exfalso
      have ha_eq : |r| = (1 + (m : ℚ) / 2 ^ (t - 1)) * 3 ^ k := by
        rw [abs_of_neg hs, hgrid]
        ring
      obtain ⟨hklog, hfrac⟩ := grid_log hm ha_eq
      rw [← hk0def] at hklog
      rw [← hklog] at hfrac
      linarith
  · -- unclamped case: fraction is |r| / 3^k0 - 1 ∈ [0, 1)
    have hf0lt : |r| / 3 ^ k0 - 1 < 1 := not_le.mp hf1
    have hf0ge : 0 ≤ |r| / 3 ^ k0 - 1 := not_lt.mp hf0nonneg
    have hfdef : fracOf |r| k0 = |r| / 3 ^ k0 - 1 := by
      rw [fracOf, if_neg hf0nonneg, if_neg hf1]
    have htv_le : fracVal (truncBits |r| k0 t) ≤ |r| / 3 ^ k0 - 1 := by
      rw [truncBits, hfdef]
      exact extractBits_le hf0ge _
    have htv_gt : |r| / 3 ^ k0 - 1
        < fracVal (truncBits |r| k0 t) + (2 : ℚ) ^ (-((t - 1 : ℕ) : ℤ)) := by
      rw [truncBits, hfdef]
      exact extractBits_gt hf0lt _
    have hexp_eq : (2 : ℚ) ^ (-((t - 1 : ℕ) : ℤ)) = (2 : ℚ) ^ (1 - (t : ℤ)) := by
      congr 1
      omega
    rw [hexp_eq] at htv_gt
    have hrepr : (1 + (|r| / 3 ^ k0 - 1)) * 3 ^ k0 = |r| := one_add_frac k0
    have herr_core : |r| - (1 + fracVal (truncBits |r| k0 t)) * 3 ^ k0 ≤ |r| / 2 := by
      have hdiv : |r| / 3 ^ k0 * 3 ^ k0 = |r| := div_mul_cancel₀ _ h3k0pos.ne'
      have h1 : |r| - (1 + fracVal (truncBits |r| k0 t)) * 3 ^ k0
          = ((|r| / 3 ^ k0 - 1) - fracVal (truncBits |r| k0 t)) * 3 ^ k0 := by
        linear_combination -hdiv
      rw [h1]
      have h2' : ((|r| / 3 ^ k0 - 1) - fracVal (truncBits |r| k0 t)) * 3 ^ k0
          ≤ (2 : ℚ) ^ (1 - (t : ℤ)) * 3 ^ k0 := by
        nlinarith
      calc ((|r| / 3 ^ k0 - 1) - fracVal (truncBits |r| k0 t)) * 3 ^ k0
          ≤ (2 : ℚ) ^ (1 - (t : ℤ)) * 3 ^ k0 := h2'
      _ ≤ (1 / 2) * 3 ^ k0 := by nlinarith
      _ ≤ |r| / 2 := by linarith
    have hq_le : (1 + fracVal (truncBits |r| k0 t)) * 3 ^ k0 ≤ |r| := by
      nlinarith
    by_cases hs : 0 < r
    · by_cases hallz : ∀ b ∈ truncBits |r| k0 t, b = 0
      · -- collision: truncation decodes to 0, correction rounds up
        have htvz : fracVal (truncBits |r| k0 t) = 0 := fracVal_all_zero hallz
        have hq0 : fl1core ((if 0 < r then (0 : ℚ) else 1) :: truncBits |r| k0 t) k0
            = 0 := by
          rw [fl1core, if_pos ?_]
          intro b hb
          rcases List.mem_cons.mp hb with h1 | h1
          · rw [h1, if_pos hs]
          · exact hallz b h1
        have htrig : 1 / 2 <
            |fl1core ((if 0 < r then (0 : ℚ) else 1) :: truncBits |r| k0 t) k0 - r| / |r| := by
          rw [hq0, zero_sub, abs_neg, div_self har.ne']
          norm_num
        have hbits_eq : truncBits |r| k0 t = List.replicate (t - 1) 0 := by
          have h1 := List.eq_replicate_length.mpr hallz
          rw [hbits_len] at h1
          exact h1
        have hres : fl3 r t k1 k2
            = .ok ((0 : ℚ) :: (List.replicate (t - 2) 0 ++ [1]) ++ [(k0 : ℚ)]) := by
          rw [fl3_to_core h2 hr0 he0 hM, fl3core_trigger hclamp htrig, if_pos hs,
            hbits_eq, roundCorrect_all_zero 0 t k0 k2 ht2]
        have hf0small : |r| / 3 ^ k0 - 1 < (2 : ℚ) ^ (1 - (t : ℤ)) := by
          rw [htvz] at htv_gt
          linarith
        have hq_err : |(1 + (2 : ℚ) ^ (1 - (t : ℤ))) * 3 ^ k0 - r| ≤ |r| / 2 := by
          have hr_eq : |r| = r := abs_of_pos hs
          have hleq : |r| ≤ (1 + (2 : ℚ) ^ (1 - (t : ℤ))) * 3 ^ k0 := by
            rw [← hrepr]
            nlinarith [mul_le_mul_of_nonneg_right (le_of_lt hf0small) h3k0pos.le]
          have hub : (1 + (2 : ℚ) ^ (1 - (t : ℤ))) * 3 ^ k0 - |r|
              ≤ (2 : ℚ) ^ (1 - (t : ℤ)) * 3 ^ k0 := by
            rw [← hrepr]
            nlinarith [mul_nonneg hf0ge h3k0pos.le]
          have hhalf : (2 : ℚ) ^ (1 - (t : ℤ)) * 3 ^ k0 ≤ (1 / 2) * 3 ^ k0 :=
            mul_le_mul_of_nonneg_right h2thalf h3k0pos.le
          rw [abs_of_nonneg (by linarith [hleq, hr_eq])]
          linarith [hub, hhalf, hr_eq, h3k0']
        refine ⟨_, _, k0, List.replicate (t - 2) 0 ++ [1], hres, by rw [if_pos hs],
          ?_, ?_, hk1k0, hk0k2, fl1_min_vec t k0 ht2, hq_err, ?_⟩
        · simp only [List.length_append, List.length_replicate, List.length_singleton]
          omega
        · intro b hb
          rcases List.mem_append.mp hb with h1 | h1
          · exact Or.inl (List.eq_of_mem_replicate h1)
          · rw [List.mem_singleton] at h1
            exact Or.inr h1
        · intro m k hm hkk1 hkk2
          constructor
          · intro hs' hm0 hgrid
            exfalso
            have ha_eq : |r| = (1 + (m : ℚ) / 2 ^ (t - 1)) * 3 ^ k := by
              rw [abs_of_pos hs]
              exact hgrid
            obtain ⟨hklog, hfrac⟩ := grid_log hm ha_eq
            rw [← hk0def] at hklog
            rw [← hklog] at hfrac
            have hm1 : (1 : ℚ) ≤ (m : ℚ) := by
              exact_mod_cast Nat.one_le_iff_ne_zero.mpr hm0
            have hp2 : (0 : ℚ) < 2 ^ (t - 1) := by positivity
            have hlb : (2 : ℚ) ^ (1 - (t : ℤ)) ≤ (m : ℚ) / 2 ^ (t - 1) := by
              rw [le_div_iff hp2]
              have hcalc : (2 : ℚ) ^ (1 - (t : ℤ)) * (2 : ℚ) ^ (t - 1 : ℕ) = 1 := by
                rw [← zpow_natCast (2 : ℚ) (t - 1),
                  ← zpow_add₀ (by norm_num : (2 : ℚ) ≠ 0),
                  show (1 - (t : ℤ) + ((t - 1 : ℕ) : ℤ)) = 0 by omega]
                exact zpow_zero 2
              rw [hcalc]
              exact hm1
            linarith
          · intro hs' hgrid
            exfalso
            linarith
      · -- positive, non-collision: truncation is within tolerance
        have hnzmant : ¬ ∀ b ∈ (0 : ℚ) :: truncBits |r| k0 t, b = 0 := fun h =>
          hallz fun b hb => h b (List.mem_cons_of_mem _ hb)
        have hqval : fl1core ((if 0 < r then (0 : ℚ) else 1) :: truncBits |r| k0 t) k0
            = (1 + fracVal (truncBits |r| k0 t)) * 3 ^ k0 := by
          rw [if_pos hs, fl1core_cons_zero hnzmant]
        have herr : |fl1core ((if 0 < r then (0 : ℚ) else 1) :: truncBits |r| k0 t) k0 - r|
            ≤ |r| / 2 := by
          rw [hqval]
          have hr_eq : r = |r| := (abs_of_pos hs).symm
          rw [← hr_eq] at hq_le herr_core ⊢
          rw [abs_of_nonpos (by linarith)]
          linarith
        refine ⟨truncVec r t k0, _, k0, truncBits |r| k0 t,
          fl3_eq_truncVec h2 hr0 he0 hM har hclamp herr, rfl, hbits_len, hbits_valid,
          hk1k0, hk0k2, fl1_truncVec .., herr, ?_⟩
        intro m k hm hkk1 hkk2
        constructor
        · intro hs' hm0 hgrid
          have ha_eq : |r| = (1 + (m : ℚ) / 2 ^ (t - 1)) * 3 ^ k := by
            rw [abs_of_pos hs]
            exact hgrid
          obtain ⟨hklog, hfrac⟩ := grid_log hm ha_eq
          rw [← hk0def] at hklog
          rw [← hklog] at hfrac
          have htv_eq := truncBits_exact hfdef hf0ge hf0lt hfrac
          rw [hqval, htv_eq, hrepr, abs_of_pos hs]
        · intro hs' hgrid
          exfalso
          linarith
    · -- negative r: mantissa head is 1, decode is negative, never collides
      have hneg : r < 0 := lt_of_le_of_ne (not_lt.mp hs) hr0
      have hqval : fl1core ((if 0 < r then (0 : ℚ) else 1) :: truncBits |r| k0 t) k0
          = -((1 + fracVal (truncBits |r| k0 t)) * 3 ^ k0) := by
        rw [if_neg hs, fl1core_cons_one]
      have herr : |fl1core ((if 0 < r then (0 : ℚ) else 1) :: truncBits |r| k0 t) k0 - r|
          ≤ |r| / 2 := by
        rw [hqval]
        have hr_eq : |r| = -r := abs_of_neg hneg
        have h1 : 0 ≤ -((1 + fracVal (truncBits |r| k0 t)) * 3 ^ k0) - r := by
          linarith [hq_le, hr_eq]
        rw [abs_of_nonneg h1]
        linarith [herr_core, hr_eq]
      refine ⟨truncVec r t k0, _, k0, truncBits |r| k0 t,
        fl3_eq_truncVec h2 hr0 he0 hM har hclamp herr, rfl, hbits_len, hbits_valid,
        hk1k0, hk0k2, fl1_truncVec .., herr, ?_⟩
      intro m k hm hkk1 hkk2
      constructor
      · intro hs' hm0 hgrid
        exfalso
        linarith
      · intro hs' hgrid
        have ha_eq : |r| = (1 + (m : ℚ) / 2 ^ (t - 1)) * 3 ^ k := by
          rw [abs_of_neg hneg, hgrid]
          ring
        obtain ⟨hklog, hfrac⟩ := grid_log hm ha_eq
        rw [← hk0def] at hklog
        rw [← hklog] at hfrac
        have htv_eq := truncBits_exact hfdef hf0ge hf0lt hfrac
        rw [hqval, htv_eq, hrepr, abs_of_neg hneg]
        ring

lemma fl3_out_of_range {r : ℚ} {t : ℕ} {k1 k2 : ℤ} {M e : ℚ} {e1 : Option ℚ} {n : ℕ}
    (h2 : fl2 t k1 k2 = some (M, e, e1, n)) (hr0 : r ≠ 0)
    (hout : |r| < e ∨ M < |r|) : ∃ msg, fl3 r t k1 k2 = .error msg := by
  obtain ⟨ht2, hk, -, -⟩ := fl2_range_facts h2
  rw [fl3, if_neg (by omega), if_neg (by omega), if_neg hr0, h2]
  dsimp only
  rcases hout with h | h
  · rw [if_pos h]
    exact ⟨_, rfl⟩
  · by_cases hsmall : |r| < e
    · rw [if_pos hsmall]
      exact ⟨_, rfl⟩
    · rw [if_neg hsmall, if_pos h]
      exact ⟨_, rfl⟩

lemma fl3_ok_inversion {r : ℚ} {t : ℕ} {k1 k2 : ℤ} {v : List ℚ}
    (hok : fl3 r t k1 k2 = .ok v) :
    r = 0 ∨ ∃ M e e1 n, fl2 t k1 k2 = some (M, e, e1, n) ∧ e ≤ |r| ∧ |r| ≤ M := by
  rw [fl3] at hok
  by_cases h1 : t = 0
  · rw [if_pos h1] at hok
    exact Except.noConfusion hok
  rw [if_neg h1] at hok
  by_cases h2 : k2 ≤ k1
  · rw [if_pos h2] at hok
    exact Except.noConfusion hok
  rw [if_neg h2] at hok
  by_cases h3 : r = 0
  · exact Or.inl h3
  rw [if_neg h3] at hok
  rcases hfl2 : fl2 t k1 k2 with - | ⟨M, e, e1, n⟩
  · rw [hfl2] at hok
    exact Except.noConfusion hok
  · rw [hfl2] at hok
    dsimp only at hok
    by_cases h4 : |r| < e
    · rw [if_pos h4] at hok
      exact Except.noConfusion hok
    rw [if_neg h4] at hok
    by_cases h5 : M < |r|
    · rw [if_pos h5] at hok
      exact Except.noConfusion hok
    · exact Or.inr ⟨M, e, e1, n, rfl, not_lt.mp h4, not_lt.mp h5⟩

lemma cons_append_dropLast (x : ℚ) (l : List ℚ) (c : ℚ) :
    (x :: l ++ [c]).dropLast = x :: l := by
  have hsplit : x :: l ++ [c] = (x :: l) ++ [c] := rfl
  rw [hsplit, List.dropLast_concat]

lemma cons_append_getLastD (x : ℚ) (l : List ℚ) (c : ℚ) :
    (x :: l ++ [c]).getLastD 0 = c := by
  have hsplit : x :: l ++ [c] = (x :: l) ++ [c] := rfl
  rw [hsplit, List.getLastD_concat]

lemma fl1_zero_vec (n : ℕ) (c : ℚ) (hn : 1 ≤ n) (hc : c.den = 1) :
    fl1 (List.replicate n (0 : ℚ) ++ [c]) = .ok 0 := by
  have hlen : (List.replicate n (0 : ℚ) ++ [c]).length = n + 1 := by simp
  have hdrop : (List.replicate n (0 : ℚ) ++ [c]).dropLast = List.replicate n 0 :=
    List.dropLast_concat ..
  have hlast : (List.replicate n (0 : ℚ) ++ [c]).getLastD 0 = c :=
    List.getLastD_concat ..
  have hbits : ∀ b ∈ (List.replicate n (0 : ℚ) ++ [c]).dropLast, b = 0 ∨ b = 1 := by
    rw [hdrop]
    intro b hbmem
    exact Or.inl (List.eq_of_mem_replicate hbmem)
  rw [fl1_eq_ok (by omega) hbits (by rw [hlast]; exact hc), hdrop,
    fl1core, if_pos fun b hbmem => List.eq_of_mem_replicate hbmem]

/-! ### Claim theorems: decode and the zero invariants -/

/-- **C5**: for every valid machine vector with non-all-zero mantissa, `fl1`
returns exactly `sign * (1 + f) * 3^characteristic` with
`f = Σ_{i=1}^{t-1} bit_i * 2^-i`; in particular
`decode([0,1,1,0,1]) = 5.25` and `decode([1,0,1,0,0]) = -1.25`. -/
theorem decode_formula :
    (∀ v : List ℚ, 2 ≤ v.length → (∀ b ∈ v.dropLast, b = 0 ∨ b = 1) →
      (v.getLastD 0).den = 1 → ¬ (∀ b ∈ v.dropLast, b = 0) →
      fl1 v = .ok ((if v.dropLast.headI = 0 then 1 else -1) *
        (1 + ∑ i ∈ Finset.range (v.dropLast.length - 1),
          v.dropLast.getD (i + 1) 0 * (2 : ℚ) ^ (-((i : ℤ) + 1))) *
        3 ^ (v.getLastD 0).num)) ∧
    fl1 [0, 1, 1, 0, (1 : ℚ)] = .ok (21 / 4) ∧
    fl1 [1, 0, 1, 0, (0 : ℚ)] = .ok (-5 / 4) := by
  refine ⟨?_, by with_unfolding_all rfl, by with_unfolding_all rfl⟩
  intro v h2 hb hd hnz
  rw [fl1_eq_ok h2 hb hd, fl1core, if_neg hnz, fracVal_sum]
  have hlen : v.dropLast.tail.length = v.dropLast.length - 1 := List.length_tail _
  have hterm : ∀ i ∈ Finset.range (v.dropLast.length - 1),
      v.dropLast.tail.getD i 0 * (2 : ℚ) ^ (-((i : ℤ) + 1))
        = v.dropLast.getD (i + 1) 0 * (2 : ℚ) ^ (-((i : ℤ) + 1)) := by
    intro i _
    rw [tail_getD]
  rw [hlen, Finset.sum_congr rfl hterm]

/-- **C9**: `fl1` of an all-zero-mantissa vector is exactly 0 for every stored
integer characteristic, and `fl3 0 t k1 k2` returns `t` zero mantissa bits
followed by characteristic 0 for all valid parameters. -/
theorem zero_invariants :
    (∀ (n : ℕ) (c : ℤ), 1 ≤ n →
      fl1 (List.replicate n (0 : ℚ) ++ [(c : ℚ)]) = .ok 0) ∧
    (∀ (t : ℕ) (k1 k2 : ℤ), 0 < t → k1 < k2 →
      fl3 0 t k1 k2 = .ok (List.replicate t (0 : ℚ) ++ [0])) := by
  constructor
  · intro n c hn
    have hlen : (List.replicate n (0 : ℚ) ++ [(c : ℚ)]).length = n + 1 := by simp
    have hdrop : (List.replicate n (0 : ℚ) ++ [(c : ℚ)]).dropLast = List.replicate n 0 :=
      List.dropLast_concat ..
    have hlast : (List.replicate n (0 : ℚ) ++ [(c : ℚ)]).getLastD 0 = (c : ℚ) :=
      List.getLastD_concat ..
    have hbits : ∀ b ∈ (List.replicate n (0 : ℚ) ++ [(c : ℚ)]).dropLast, b = 0 ∨ b = 1 := by
      rw [hdrop]
      intro b hbmem
      exact Or.inl (List.eq_of_mem_replicate hbmem)
    rw [fl1_eq_ok (by omega) hbits (by rw [hlast]; exact Rat.den_intCast c), hdrop,
      fl1core, if_pos fun b hbmem => List.eq_of_mem_replicate hbmem]
  · intro t k1 k2 ht hk
    rw [fl3, if_neg (by omega), if_neg (by omega), if_pos rfl]

/-- **C8**: whenever the rounding correction of `fl3` runs with every
fractional bit equal to 1, the ripple carry overflows past the most
significant bit; with `k < k2` the corrected number has characteristic
`k + 1` and all fractional bits zero, while with `k = k2` the
characteristic is unchanged. -/
theorem carry_overflow_renormalization (t : ℕ) (s : ℚ) (k k2 : ℤ) (ht : 2 ≤ t) :
    (carryStep (List.replicate (t - 1) (1 : ℚ)).reverse).2 = true ∧
    (k < k2 → roundCorrect s (List.replicate (t - 1) 1) k k2 t =
      .ok (s :: List.replicate (t - 1) 0 ++ [((k + 1 : ℤ) : ℚ)])) ∧
    (k = k2 → roundCorrect s (List.replicate (t - 1) 1) k k2 t =
      .ok (s :: List.replicate (t - 1) 0 ++ [(k : ℚ)])) := by
  obtain ⟨u, hu⟩ : ∃ u, t - 1 = u + 1 := ⟨t - 2, by omega⟩
  have hrev : (List.replicate (t - 1) (1 : ℚ)).reverse = 1 :: List.replicate u 1 := by
    rw [List.reverse_replicate, hu, List.replicate_succ]
  have hcarry : carryStep ((1 : ℚ) :: List.replicate u 1)
      = (List.replicate (t - 1) 0, true) := by
    rw [← hrev, List.reverse_replicate]
    exact carryStep_replicate_one _
  refine ⟨by rw [hrev, hcarry], ?_, ?_⟩
  · intro hkk
    rw [roundCorrect, hrev]
    simp [hcarry, hkk]
  · intro hkk
    rw [roundCorrect, hrev]
    simp [hcarry, hkk, List.reverse_replicate]

/-- **C2** (amended): for every `t ≥ 2` (rather than every positive `t`; at
`t = 1` the positive part of the set is empty and `characterize` raises) and
all `k1 < k2`, `characterize` returns, with `M_inf > 0`, `eps_0 > 0`,
`eps_0 ≤ M_inf`, `num_elements ≥ 2`, the enumerated set containing zero and
at least one strictly positive value. -/
theorem characterize_returns_amended (t : ℕ) (k1 k2 : ℤ) (ht : 2 ≤ t) (hk : k1 < k2) :
    ∃ M e e1 n, fl2 t k1 k2 = some (M, e, e1, n) ∧ 0 < M ∧ 0 < e ∧ e ≤ M ∧ 2 ≤ n ∧
      (0 : ℚ) ∈ fl2Values t k1 k2 ∧ ∃ x ∈ fl2Values t k1 k2, 0 < x := by
  obtain ⟨M, e1, n, heq, hM0, hvM, hMu, hn⟩ := fl2_eq_some ht hk
  have hv0pos : (0 : ℚ) < (1 + (2 : ℚ) ^ (1 - (t : ℤ))) * 3 ^ k1 := by positivity
  exact ⟨M, _, e1, n, heq, hM0, hv0pos, hvM, hn,
    mem_fl2Values.mpr (Or.inl rfl), ⟨_, eps0_mem ht hk.le, hv0pos⟩⟩

/-- Witness for `characterize_returns_amended` at `t = 2, k1 = 0, k2 = 1`. -/
theorem characterize_returns_witness :
    ∃ M e e1 n, fl2 2 0 1 = some (M, e, e1, n) ∧ 0 < M ∧ 0 < e ∧ e ≤ M ∧ 2 ≤ n ∧
      (0 : ℚ) ∈ fl2Values 2 0 1 ∧ ∃ x ∈ fl2Values 2 0 1, 0 < x :=
  characterize_returns_amended 2 0 1 (le_refl 2) (by norm_num)

/-- **C3** (amended): for `t ≥ 2` and `k1 < k2`, the `eps_0` returned by
`characterize` equals `(1 + 2^-(t-1)) * 3^k1` — the decode of the mantissa
with the smallest NONZERO fractional part at characteristic `k1` (the
all-zero fractional pattern is skipped as the zero encoding), not
`(1 + 0) * 3^k1`. -/
theorem eps0_closed_form_amended (t : ℕ) (k1 k2 : ℤ) (ht : 2 ≤ t) (hk : k1 < k2) :
    ∃ M e1 n, fl2 t k1 k2 = some (M, (1 + (2 : ℚ) ^ (1 - (t : ℤ))) * 3 ^ k1, e1, n) ∧
      (1 + (2 : ℚ) ^ (1 - (t : ℤ))) * 3 ^ k1
        = fl1core (0 :: (List.replicate (t - 2) 0 ++ [1])) k1 := by
  obtain ⟨M, e1, n, heq, -⟩ := fl2_eq_some ht hk
  exact ⟨M, e1, n, heq, (fl1core_min_mantissa t k1 ht).symm⟩

/-- Witness for `eps0_closed_form_amended` at `t = 2, k1 = 0, k2 = 1`. -/
theorem eps0_closed_form_witness :
    ∃ M e1 n, fl2 2 0 1 = some (M, (1 + (2 : ℚ) ^ (1 - ((2 : ℕ) : ℤ))) * 3 ^ (0 : ℤ), e1, n) ∧
      (1 + (2 : ℚ) ^ (1 - ((2 : ℕ) : ℤ))) * 3 ^ (0 : ℤ)
        = fl1core (0 :: (List.replicate (2 - 2) 0 ++ [1])) 0 :=
  eps0_closed_form_amended 2 0 1 (le_refl 2) (by norm_num)

/-- **C6** (amended): `add(zero, X) = X` element-for-element for every valid
machine number `X`, and `add(X, zero) = X` whenever `X` has a non-all-zero
mantissa (when `X` is itself a zero vector, `add(X, zero)` returns the zero
OPERAND, whose characteristic may differ from that of `X`). -/
theorem add_zero_identity_amended (v : List ℚ) (c : ℤ) (h2 : 2 ≤ v.length)
    (hb : ∀ b ∈ v.dropLast, b = 0 ∨ b = 1) (hd : (v.getLastD 0).den = 1) :
    fl4 (List.replicate (v.length - 1) (0 : ℚ) ++ [(c : ℚ)]) v = .ok v ∧
    (¬ (∀ b ∈ v.dropLast, b = 0) →
      fl4 v (List.replicate (v.length - 1) (0 : ℚ) ++ [(c : ℚ)]) = .ok v) := by
  have hzdrop : (List.replicate (v.length - 1) (0 : ℚ) ++ [(c : ℚ)]).dropLast
      = List.replicate (v.length - 1) 0 := List.dropLast_concat ..
  have hzlast : (List.replicate (v.length - 1) (0 : ℚ) ++ [(c : ℚ)]).getLastD 0
      = (c : ℚ) := List.getLastD_concat ..
  have hzlen : (List.replicate (v.length - 1) (0 : ℚ) ++ [(c : ℚ)]).length = v.length := by
    simp only [List.length_append, List.length_replicate, List.length_singleton]
    omega
  have hzbits : ∀ b ∈ (List.replicate (v.length - 1) (0 : ℚ) ++ [(c : ℚ)]).dropLast,
      b = 0 ∨ b = 1 := by
    rw [hzdrop]
    exact fun b hbm => Or.inl (List.eq_of_mem_replicate hbm)
  have hzzero : ∀ b ∈ (List.replicate (v.length - 1) (0 : ℚ) ++ [(c : ℚ)]).dropLast,
      b = 0 := by
    rw [hzdrop]
    exact fun b hbm => List.eq_of_mem_replicate hbm
  have hzden : ((List.replicate (v.length - 1) (0 : ℚ) ++ [(c : ℚ)]).getLastD 0).den = 1 := by
    rw [hzlast]
    exact Rat.den_intCast c
  constructor
  · rw [fl4, if_neg (not_ne_iff.mpr hzlen), if_neg (by omega),
      if_neg (not_not_intro ⟨hzbits, hb⟩),
      if_neg (not_or.mpr ⟨not_not_intro hzden, not_not_intro hd⟩), if_pos hzzero]
  · intro hnz
    rw [fl4, if_neg (not_ne_iff.mpr hzlen.symm), if_neg (by omega),
      if_neg (not_not_intro ⟨hb, hzbits⟩),
      if_neg (not_or.mpr ⟨not_not_intro hd, not_not_intro hzden⟩), if_neg hnz,
      if_pos hzzero]

/-- Witness for `add_zero_identity_amended` at `X = [0,1,2]`, zero char 7. -/
theorem add_zero_identity_witness :
    fl4 (List.replicate ([0, 1, (2 : ℚ)].length - 1) (0 : ℚ) ++ [((7 : ℤ) : ℚ)])
      [0, 1, (2 : ℚ)] = .ok [0, 1, (2 : ℚ)] ∧
    (¬ (∀ b ∈ [0, 1, (2 : ℚ)].dropLast, b = 0) →
      fl4 [0, 1, (2 : ℚ)] (List.replicate ([0, 1, (2 : ℚ)].length - 1) (0 : ℚ) ++
        [((7 : ℤ) : ℚ)]) = .ok [0, 1, (2 : ℚ)]) :=
  add_zero_identity_amended [0, 1, (2 : ℚ)] 7 (by simp) (by decide) (by decide)

/-- **C4** (amended): for valid equal-width operands with non-zero mantissas,
`add` never raises; when both encode attempts fail it returns the saturation
vector with all-ones fractional mantissa, sign bit matching the real sum,
and characteristic `max(k_A, k_B) + 2` — the max bound BEFORE widening, not
the widened bound `max(k_A, k_B) + 5`. -/
theorem add_saturation_amended (v1 v2 : List ℚ) (r1 r2 : ℚ)
    (hlen : v1.length = v2.length) (h2 : 2 ≤ v1.length)
    (hb1 : ∀ b ∈ v1.dropLast, b = 0 ∨ b = 1) (hb2 : ∀ b ∈ v2.dropLast, b = 0 ∨ b = 1)
    (hd1 : (v1.getLastD 0).den = 1) (hd2 : (v2.getLastD 0).den = 1)
    (hnz1 : ¬ (∀ b ∈ v1.dropLast, b = 0)) (hnz2 : ¬ (∀ b ∈ v2.dropLast, b = 0))
    (hr1 : fl1 v1 = .ok r1) (hr2 : fl1 v2 = .ok r2) :
    (∃ v, fl4 v1 v2 = .ok v) ∧
    (∀ m1 m2 : String, r1 + r2 ≠ 0 →
      fl3 (r1 + r2) (v1.length - 1)
        (min (v1.getLastD 0).num (v2.getLastD 0).num - 2)
        (max (v1.getLastD 0).num (v2.getLastD 0).num + 2) = .error m1 →
      fl3 (r1 + r2) (v1.length - 1)
        (min (v1.getLastD 0).num (v2.getLastD 0).num - 2 - 3)
        (max (v1.getLastD 0).num (v2.getLastD 0).num + 2 + 3) = .error m2 →
      fl4 v1 v2 = .ok ((if 0 < r1 + r2 then (0 : ℚ) else 1) ::
        List.replicate (v1.length - 2) (1 : ℚ) ++
        [((max (v1.getLastD 0).num (v2.getLastD 0).num + 2 : ℤ) : ℚ)])) := by
  have hred : ∀ res : Except String (List ℚ), fl4 v1 v2 = res ↔
      (if r1 + r2 = 0 then (.ok (List.replicate (v1.length - 1) (0 : ℚ) ++ [0]) :
          Except String (List ℚ))
       else
        match fl3 (r1 + r2) (v1.length - 1)
            (min (v1.getLastD 0).num (v2.getLastD 0).num - 2)
            (max (v1.getLastD 0).num (v2.getLastD 0).num + 2) with
        | .ok v => .ok v
        | .error _ =>
          match fl3 (r1 + r2) (v1.length - 1)
              (min (v1.getLastD 0).num (v2.getLastD 0).num - 2 - 3)
              (max (v1.getLastD 0).num (v2.getLastD 0).num + 2 + 3) with
          | .ok v => .ok v
          | .error _ =>
            if 0 < r1 + r2 then
              .ok ((0 : ℚ) :: List.replicate (v1.length - 2) (1 : ℚ) ++
                [((max (v1.getLastD 0).num (v2.getLastD 0).num + 2 : ℤ) : ℚ)])
            else
              .ok ((1 : ℚ) :: List.replicate (v1.length - 2) (1 : ℚ) ++
                [((max (v1.getLastD 0).num (v2.getLastD 0).num + 2 : ℤ) : ℚ)])) = res := by
    intro res
    rw [fl4, if_neg (not_ne_iff.mpr hlen), if_neg (by omega),
      if_neg (not_not_intro ⟨hb1, hb2⟩),
      if_neg (not_or.mpr ⟨not_not_intro hd1, not_not_intro hd2⟩),
      if_neg hnz1, if_neg hnz2, hr1, hr2]
  constructor
  · by_cases hs : r1 + r2 = 0
    · exact ⟨_, (hred _).mpr (by rw [if_pos hs])⟩
    · rcases hA : fl3 (r1 + r2) (v1.length - 1)
          (min (v1.getLastD 0).num (v2.getLastD 0).num - 2)
          (max (v1.getLastD 0).num (v2.getLastD 0).num + 2) with mA | vA
      · rcases hB : fl3 (r1 + r2) (v1.length - 1)
            (min (v1.getLastD 0).num (v2.getLastD 0).num - 2 - 3)
            (max (v1.getLastD 0).num (v2.getLastD 0).num + 2 + 3) with mB | vB
        · by_cases hsgn : 0 < r1 + r2
          · exact ⟨_, (hred _).mpr (by rw [if_neg hs, hA, hB]; dsimp only; rw [if_pos hsgn])⟩
          · exact ⟨_, (hred _).mpr (by rw [if_neg hs, hA, hB]; dsimp only; rw [if_neg hsgn])⟩
        · exact ⟨vB, (hred _).mpr (by rw [if_neg hs, hA, hB])⟩
      · exact ⟨vA, (hred _).mpr (by rw [if_neg hs, hA])⟩
  · intro m1 m2 hs h1 h2'
    apply (hred _).mpr
    rw [if_neg hs, h1, h2']
    dsimp only
    by_cases hsgn : 0 < r1 + r2
    · rw [if_pos hsgn, if_pos hsgn]
    · rw [if_neg hsgn, if_neg hsgn]

/-- Witness for `add_saturation_amended` at the width-1 operands
`A = [1,0]`, `B = [1,1]` (both encode attempts fail, saturation fires). -/
theorem add_saturation_witness :
    (∃ v, fl4 [1, (0 : ℚ)] [1, (1 : ℚ)] = .ok v) ∧
    fl4 [1, (0 : ℚ)] [1, (1 : ℚ)] = .ok ((if 0 < (-1 : ℚ) + (-3) then (0 : ℚ) else 1) ::
      List.replicate ([1, (0 : ℚ)].length - 2) (1 : ℚ) ++
      [((max ([1, (0 : ℚ)].getLastD 0).num ([1, (1 : ℚ)].getLastD 0).num + 2 : ℤ) : ℚ)]) :=
  ⟨(add_saturation_amended [1, (0 : ℚ)] [1, (1 : ℚ)] (-1) (-3) rfl (by simp)
      (by decide) (by decide) (by decide) (by decide) (by decide) (by decide)
      (by with_unfolding_all rfl) (by with_unfolding_all rfl)).1,
   (add_saturation_amended [1, (0 : ℚ)] [1, (1 : ℚ)] (-1) (-3) rfl (by simp)
      (by decide) (by decide) (by decide) (by decide) (by decide) (by decide)
      (by with_unfolding_all rfl) (by with_unfolding_all rfl)).2
     "characterization failed" "characterization failed" (by norm_num)
     (by with_unfolding_all rfl) (by with_unfolding_all rfl)⟩

/-- **C1** (amended): for every `r` with `eps_0 ≤ |r| ≤ M_inf` (as computed by
`characterize` for the same parameters), `decode(encode(r, t, k1, k2))` has
relative error at most 0.5; it is exactly `r` whenever `r` lies on a mantissa
grid point `± (1 + m/2^(t-1)) * 3^k`, EXCEPT for positive `r` with zero
fractional part (`r = 3^k`): there the truncated mantissa is all zero,
collides with the zero encoding, and the rounding correction returns
`(1 + 2^-(t-1)) * 3^k` instead of `r`. -/
theorem roundtrip_error_bound_amended (r : ℚ) (t : ℕ) (k1 k2 : ℤ) (M e : ℚ)
    (e1 : Option ℚ) (n : ℕ) (h2 : fl2 t k1 k2 = some (M, e, e1, n))
    (he : e ≤ |r|) (hM : |r| ≤ M) :
    ∃ v q, fl3 r t k1 k2 = .ok v ∧ fl1 v = .ok q ∧ |q - r| / |r| ≤ 1 / 2 ∧
      (∀ (m : ℕ) (k : ℤ), m < 2 ^ (t - 1) → k1 ≤ k → k ≤ k2 →
        (0 < r → m ≠ 0 → r = (1 + (m : ℚ) / 2 ^ (t - 1)) * 3 ^ k → q = r) ∧
        (r < 0 → r = -((1 + (m : ℚ) / 2 ^ (t - 1)) * 3 ^ k) → q = r)) := by
  obtain ⟨-, -, heval, -⟩ := fl2_range_facts h2
  have har : 0 < |r| := by
    have : 0 < e := by rw [heval]; positivity
    linarith
  obtain ⟨v, q, kf, bits, hok, -, -, -, -, -, hdec, herr, hexact⟩ := fl3_run_spec h2 he hM
  refine ⟨v, q, hok, hdec, ?_, hexact⟩
  rw [div_le_iff₀ har]
  linarith

/-- Witness for `roundtrip_error_bound_amended` at `r = 2, (t,k1,k2) = (2,0,1)`. -/
theorem roundtrip_error_bound_witness :
    ∃ v q, fl3 2 2 0 1 = .ok v ∧ fl1 v = .ok q ∧ |q - (2 : ℚ)| / |(2 : ℚ)| ≤ 1 / 2 ∧
      (∀ (m : ℕ) (k : ℤ), m < 2 ^ (2 - 1) → 0 ≤ k → k ≤ 1 →
        (0 < (2 : ℚ) → m ≠ 0 → (2 : ℚ) = (1 + (m : ℚ) / 2 ^ (2 - 1)) * 3 ^ k →
          q = 2) ∧
        ((2 : ℚ) < 0 → (2 : ℚ) = -((1 + (m : ℚ) / 2 ^ (2 - 1)) * 3 ^ k) → q = 2)) :=
  roundtrip_error_bound_amended 2 2 0 1 (9 / 2) (3 / 2) (some (1 / 2)) 7
    (by with_unfolding_all rfl) (by norm_num) (by norm_num)

/-- **C7**: for non-zero `r` and parameters for which `characterize` returns
`(M_inf, eps_0, ...)`, `encode` raises a range error exactly when
`|r| < eps_0` or `|r| > M_inf`, and returns normally exactly when
`eps_0 ≤ |r| ≤ M_inf`. -/
theorem encode_range_rejection (r : ℚ) (t : ℕ) (k1 k2 : ℤ) (M e : ℚ) (e1 : Option ℚ)
    (n : ℕ) (hr0 : r ≠ 0) (h2 : fl2 t k1 k2 = some (M, e, e1, n)) :
    ((∃ msg, fl3 r t k1 k2 = .error msg) ↔ (|r| < e ∨ M < |r|)) ∧
    ((∃ v, fl3 r t k1 k2 = .ok v) ↔ (e ≤ |r| ∧ |r| ≤ M)) := by
  constructor
  · constructor
    · rintro ⟨msg, hmsg⟩
      by_contra hc
      push_neg at hc
      obtain ⟨v, q, kf, bits, hok, -⟩ := fl3_run_spec h2 hc.1 hc.2
      rw [hok] at hmsg
      exact Except.noConfusion hmsg
    · exact fun h => fl3_out_of_range h2 hr0 h
  · constructor
    · rintro ⟨v, hv⟩
      by_contra hc
      rcases not_and_or.mp hc with h | h
      · obtain ⟨msg, hmsg⟩ := fl3_out_of_range h2 hr0 (Or.inl (not_le.mp h))
        rw [hv] at hmsg
        exact Except.noConfusion hmsg
      · obtain ⟨msg, hmsg⟩ := fl3_out_of_range h2 hr0 (Or.inr (not_le.mp h))
        rw [hv] at hmsg
        exact Except.noConfusion hmsg
    · rintro ⟨hle, hge⟩
      obtain ⟨v, q, kf, bits, hok, -⟩ := fl3_run_spec h2 hle hge
      exact ⟨v, hok⟩

/-- Witness for `encode_range_rejection` at `r = 2, (t,k1,k2) = (2,0,1)`. -/
theorem encode_range_rejection_witness :
    (((∃ msg, fl3 2 2 0 1 = .error msg) ↔ (|(2 : ℚ)| < 3 / 2 ∨ 9 / 2 < |(2 : ℚ)|)) ∧
     ((∃ v, fl3 2 2 0 1 = .ok v) ↔ ((3 : ℚ) / 2 ≤ |(2 : ℚ)| ∧ |(2 : ℚ)| ≤ 9 / 2))) :=
  encode_range_rejection 2 2 0 1 (9 / 2) (3 / 2) (some (1 / 2)) 7 (by norm_num)
    (by with_unfolding_all rfl)

/-- **C10** (amended): every vector returned by a successful
`encode(r, t, k1, k2)` has length `t + 1`, mantissa entries in `{0, 1}`, sign
bit 0 for `r > 0` and 1 for `r < 0`, an integer final entry, and is accepted
by decode; for `r ≠ 0` the characteristic lies in `[k1, k2]`, but for
`r = 0` the returned characteristic is always 0, which may lie OUTSIDE
`[k1, k2]`. -/
theorem encode_output_valid_amended (r : ℚ) (t : ℕ) (k1 k2 : ℤ) (v : List ℚ)
    (hok : fl3 r t k1 k2 = .ok v) :
    v.length = t + 1 ∧ (∀ b ∈ v.dropLast, b = 0 ∨ b = 1) ∧
    (0 < r → v.headI = 0) ∧ (r < 0 → v.headI = 1) ∧
    (v.getLastD 0).den = 1 ∧
    (r ≠ 0 → k1 ≤ (v.getLastD 0).num ∧ (v.getLastD 0).num ≤ k2) ∧
    (r = 0 → v.getLastD 0 = 0) ∧
    (∃ q, fl1 v = .ok q) := by
  by_cases hr0 : r = 0
  · subst hr0
    rw [fl3] at hok
    by_cases h1 : t = 0
    · rw [if_pos h1] at hok
      exact Except.noConfusion hok
    rw [if_neg h1] at hok
    by_cases hkk : k2 ≤ k1
    · rw [if_pos hkk] at hok
      exact Except.noConfusion hok
    rw [if_neg hkk, if_pos rfl] at hok
    have hv : v = List.replicate t (0 : ℚ) ++ [0] := (Except.ok.injEq .. |>.mp hok).symm
    subst hv
    have hdrop : (List.replicate t (0 : ℚ) ++ [(0 : ℚ)]).dropLast = List.replicate t 0 :=
      List.dropLast_concat ..
    have hlast : (List.replicate t (0 : ℚ) ++ [(0 : ℚ)]).getLastD 0 = 0 :=
      List.getLastD_concat ..
    refine ⟨by simp, ?_, ?_, ?_, ?_, ?_, fun _ => hlast, ?_⟩
    · rw [hdrop]
      exact fun b hb => Or.inl (List.eq_of_mem_replicate hb)
    · intro h
      exact absurd h (lt_irrefl 0)
    · intro h
      exact absurd h (lt_irrefl 0)
    · rw [hlast]
      rfl
    · intro h
      exact absurd rfl h
    · exact ⟨0, fl1_zero_vec t 0 (by omega) rfl⟩
  · rcases fl3_ok_inversion hok with h | ⟨M, e, e1, n, h2, hle, hge⟩
    · exact absurd h hr0
    · have ht2 : 2 ≤ t := fl2_some_t2 h2
      obtain ⟨v', q, kf, bits, hok', hshape, hblen, hbval, hkf1, hkf2, hdec, -, -⟩ :=
        fl3_run_spec h2 hle hge
      rw [hok] at hok'
      have hv : v = v' := (Except.ok.injEq .. |>.mp hok')
      subst hv
      subst hshape
      have hdrop := cons_append_dropLast (if 0 < r then (0 : ℚ) else 1) bits (kf : ℚ)
      have hlast := cons_append_getLastD (if 0 < r then (0 : ℚ) else 1) bits (kf : ℚ)
      refine ⟨?_, ?_, ?_, ?_, ?_, ?_, ?_, ⟨q, hdec⟩⟩
      · simp only [List.length_cons, List.length_append, List.length_singleton,
          List.length_nil, hblen]
        omega
      · rw [hdrop]
        intro b hb
        rcases List.mem_cons.mp hb with h1 | h1
        · by_cases hs : 0 < r
          · rw [if_pos hs] at h1
            exact Or.inl h1
          · rw [if_neg hs] at h1
            exact Or.inr h1
        · exact hbval b h1
      · intro hs
        exact if_pos hs
      · intro hs
        exact if_neg (not_lt.mpr hs.le)
      · rw [hlast]
        exact Rat.den_intCast kf
      · intro _
        rw [hlast, Rat.num_intCast]
        exact ⟨hkf1, hkf2⟩
      · intro h
        exact absurd h hr0

/-- Witness for `encode_output_valid_amended` at `fl3 2 2 0 1 = ok [0,1,0]`. -/
theorem encode_output_valid_witness :
    [0, 1, (0 : ℚ)].length = 2 + 1 ∧ (∀ b ∈ [0, 1, (0 : ℚ)].dropLast, b = 0 ∨ b = 1) ∧
    (0 < (2 : ℚ) → [0, 1, (0 : ℚ)].headI = 0) ∧
    ((2 : ℚ) < 0 → [0, 1, (0 : ℚ)].headI = 1) ∧
    ([0, 1, (0 : ℚ)].getLastD 0).den = 1 ∧
    ((2 : ℚ) ≠ 0 → (0 : ℤ) ≤ ([0, 1, (0 : ℚ)].getLastD 0).num ∧
      ([0, 1, (0 : ℚ)].getLastD 0).num ≤ 1) ∧
    ((2 : ℚ) = 0 → [0, 1, (0 : ℚ)].getLastD 0 = 0) ∧
    (∃ q, fl1 [0, 1, (0 : ℚ)] = .ok q) :=
  encode_output_valid_amended 2 2 0 1 [0, 1, (0 : ℚ)] (by with_unfolding_all rfl)

/-! ### Counterexamples -/

/-- **C1** (counterexample): `r = 3` lies within `[eps_0, M_inf]` for
`(t,k1,k2) = (2,0,2)` and is exactly the grid point `(1+0)*3^1`, yet
`decode(encode(3)) = 9/2 ≠ 3`. -/
theorem roundtrip_not_exact_on_power_grid :
    fl2 2 0 2 = some (27 / 2, 3 / 2, some (1 / 2), 10) ∧
    (3 : ℚ) / 2 ≤ |(3 : ℚ)| ∧ |(3 : ℚ)| ≤ 27 / 2 ∧
    GridPoint 3 2 0 2 ∧
    fl3 3 2 0 2 = .ok [0, 1, (1 : ℚ)] ∧
    fl1 [0, 1, (1 : ℚ)] = .ok (9 / 2) ∧ (9 / 2 : ℚ) ≠ 3 := by
  refine ⟨by with_unfolding_all rfl, by norm_num, by norm_num, ⟨0, 1, ?_⟩,
    by with_unfolding_all rfl, by with_unfolding_all rfl, by norm_num⟩
  norm_num

/-- **C2** (counterexample): at `t = 1` (a positive integer) with
`k1 = 0 < 1 = k2`, `characterize` does not return — the positive part of the
enumerated set is empty and `np.min` raises. -/
theorem characterize_raises_at_t_one :
    0 < 1 ∧ (0 : ℤ) < 1 ∧ fl2 1 0 1 = none :=
  ⟨by norm_num, by norm_num, by with_unfolding_all rfl⟩

/-- **C3** (counterexample): for `t = 2, k1 = 0, k2 = 1` the returned
`eps_0` is `3/2 = (1 + 2^-1) * 3^0`, not the claimed `(1 + 0) * 3^0 = 1`. -/
theorem eps0_not_3pow_k1 :
    fl2 2 0 1 = some (9 / 2, 3 / 2, some (1 / 2), 7) ∧
    (3 / 2 : ℚ) ≠ (1 + 0) * 3 ^ (0 : ℤ) :=
  ⟨by with_unfolding_all rfl, by norm_num⟩

/-- **C4** (counterexample): for `A = [1,0]`, `B = [1,1]` (width `t = 1`)
both encode attempts fail and `fl4` saturates, but the returned
characteristic is `max(k_A,k_B) + 2 = 3`, not the widened bound
`max(k_A,k_B) + 5 = 6` asserted by the claim. -/
theorem add_saturation_char_not_widened :
    fl4 [1, (0 : ℚ)] [1, (1 : ℚ)] = .ok [1, (3 : ℚ)] ∧ (3 : ℚ) ≠ 6 :=
  ⟨by with_unfolding_all rfl, by norm_num⟩

/-- **C6** (counterexample): for `X = [0,0,5]` (an all-zero mantissa with
characteristic 5) and the zero vector `[0,0,0]`, `add(X, zero)` returns
`[0,0,0]`, which differs element-for-element from `X`. -/
theorem add_zero_identity_fails_on_zero_operand :
    fl4 [0, 0, (5 : ℚ)] [0, 0, (0 : ℚ)] = .ok [0, 0, 0] ∧
    [0, 0, (0 : ℚ)] ≠ [0, 0, (5 : ℚ)] :=
  ⟨by with_unfolding_all rfl, by simp⟩

/-- **C10** (counterexample): `encode(0, 2, 2, 3)` succeeds and returns
characteristic 0, which lies outside `[k1, k2] = [2, 3]`. -/
theorem encode_zero_char_outside_range :
    fl3 0 2 2 3 = .ok [0, 0, (0 : ℚ)] ∧
    [0, 0, (0 : ℚ)].getLastD 0 = ((0 : ℤ) : ℚ) ∧ ¬ ((2 : ℤ) ≤ 0 ∧ (0 : ℤ) ≤ 3) :=
  ⟨by with_unfolding_all rfl, by norm_num, by omega⟩

/-! ### Witnesses for the decode, zero-invariant and carry theorems -/

/-- Witness for `decode_formula` at the vector `[0, 1, 0, 2]`. -/
theorem decode_formula_witness :
    fl1 [0, 1, 0, (2 : ℚ)] = .ok ((if [0, 1, 0, (2 : ℚ)].dropLast.headI = 0 then 1 else -1) *
      (1 + ∑ i ∈ Finset.range ([0, 1, 0, (2 : ℚ)].dropLast.length - 1),
        [0, 1, 0, (2 : ℚ)].dropLast.getD (i + 1) 0 * (2 : ℚ) ^ (-((i : ℤ) + 1))) *
      3 ^ ([0, 1, 0, (2 : ℚ)].getLastD 0).num) :=
  decode_formula.1 _ (by simp) (by decide) (by decide) (by decide)

/-- Witness for `zero_invariants` at `n = 3, c = 5` and `(t,k1,k2) = (2,0,1)`. -/
theorem zero_invariants_witness :
    fl1 (List.replicate 3 (0 : ℚ) ++ [((5 : ℤ) : ℚ)]) = .ok 0 ∧
    fl3 0 2 0 1 = .ok (List.replicate 2 (0 : ℚ) ++ [0]) :=
  ⟨zero_invariants.1 3 5 (by norm_num), zero_invariants.2 2 0 1 (by norm_num) (by norm_num)⟩

/-- Witness for `carry_overflow_renormalization` at `t = 2, k = 0, k2 = 1`. -/
theorem carry_overflow_renormalization_witness :
    (carryStep (List.replicate (2 - 1) (1 : ℚ)).reverse).2 = true ∧
    roundCorrect 0 (List.replicate (2 - 1) 1) 0 1 2 =
      .ok (0 :: List.replicate (2 - 1) 0 ++ [((0 + 1 : ℤ) : ℚ)]) :=
  ⟨(carry_overflow_renormalization 2 0 0 1 (le_refl 2)).1,
   (carry_overflow_renormalization 2 0 0 1 (le_refl 2)).2.1 (by norm_num)⟩

end MachineNumbers
